import Mathlib

/-!
# CudaRL `Tensor`: a shallow embedding of `src/core/tensor.cpp`

The C++ class `cudarl::Tensor` owns a raw `float*` buffer.  The embedding keeps
the three fields of the class (`data_`, `size_`, `owns_memory_`) and makes the
free store explicit:

* a pointer is a block address (`0` is `nullptr`), `data_[i]` is cell `i` of
  the block at `data_`;
* a cell carries its value and a flag telling whether it was ever written, so
  that `new float[n]` (which leaves the array uninitialized) can be told apart
  from a filled array;
* an access outside a live allocation, which is undefined behaviour in C++, is
  the explicit outcome `Exn.memory_fault`;
* the element type `float` and its arithmetic are a parameter `F` of the
  development: every statement holds for whatever `+`, `-`, `*` the machine
  provides;
* `new` always succeeds (allocation failure is outside the error taxonomy of
  the specification), and sizes and indices are natural numbers: a `size_t`
  is never incremented past a length here, so no loop counter wraps;
* an operation that returns a `Tensor` by value returns the fields of its local
  `result` together with the heap it leaves;
* every `throw` of `tensor.cpp` is the first statement of its function, before
  any allocation or store, so an exceptional outcome carries no heap: the heap
  after it is the heap of the call;
* `std::cout` is the list of insertions made into it together with its format
  flags; how a `float` is turned into characters under given flags is a
  parameter, and the one subtraction made on a `size_t` wraps modulo `2^64`;
* the generator of `random` is a state and a function giving a draw and the
  next state;
* a program is a sequence of operations on tensors named by their addresses,
  started with nothing allocated.
-/

namespace cudarl

/-- Ways in which a call can end abnormally: the two C++ exceptions thrown by
`tensor.cpp`, and an access outside a live allocation. -/
inductive Exn where
  | out_of_range
  | invalid_argument
  | memory_fault
  deriving DecidableEq, Repr

/-- One `float` slot of an allocation: the stored value and whether the slot has
been written since `new float[n]` handed it out. -/
structure Cell (F : Type) where
  val : F
  init : Bool
  deriving DecidableEq, Repr

/-- The null pointer; pointers are block addresses, natural numbers. -/
abbrev nullptr : Nat := 0

/-- The free store: the live blocks, the last address handed out, and the
unspecified contents a fresh array is found to hold. -/
structure Heap (F : Type) where
  mem : Nat → Option (List (Cell F))
  next : Nat
  garbage : Nat → Nat → F

/-- The fields of `class Tensor` (`tensor.h`, lines 15-17). -/
structure Tensor where
  data_ : Nat
  size_ : Nat
  owns_memory_ : Bool
  deriving DecidableEq, Repr

/-- Program state for the operations that depend on object identity
(`this != &other`): the `Tensor` objects by address, and the free store. -/
structure State (F : Type) where
  objs : Nat → Tensor
  heap : Heap F

variable {F : Type}

/-- The heap expression `new float[n]`: a fresh non-null block of `n` unwritten cells. -/
def Heap.new_array (h : Heap F) (n : Nat) : Nat × Heap F :=
  (h.next + 1,
    { h with
      mem := Function.update h.mem (h.next + 1)
        (some ((List.range n).map fun i => Cell.mk (h.garbage (h.next + 1) i) false))
      next := h.next + 1 })

/-- The heap statement `delete[] p`. -/
def Heap.delete_array (h : Heap F) (p : Nat) : Except Exn (Heap F) :=
  match h.mem p with
  | some _ => .ok { h with mem := Function.update h.mem p none }
  | none => .error .memory_fault

/-- Reading `p[i]`. -/
def Heap.load (h : Heap F) (p : Nat) (i : Nat) : Except Exn F :=
  match h.mem p with
  | some cells =>
    match cells[i]? with
    | some c => .ok c.val
    | none => .error .memory_fault
  | none => .error .memory_fault

/-- Writing `p[i] = v`. -/
def Heap.store (h : Heap F) (p : Nat) (i : Nat) (v : F) : Except Exn (Heap F) :=
  match h.mem p with
  | some cells =>
    if i < cells.length then
      .ok { h with mem := Function.update h.mem p (some (cells.set i (Cell.mk v true))) }
    else .error .memory_fault
  | none => .error .memory_fault

/-- A call `std::memcpy(dst, src, n * sizeof(float))`: the first `n` cells of `src`
are copied as they are (an unwritten cell stays unwritten) over those of `dst`. -/
def Heap.memcpy (h : Heap F) (dst src : Nat) (n : Nat) : Except Exn (Heap F) :=
  match h.mem dst, h.mem src with
  | some d, some s =>
    if n ≤ d.length ∧ n ≤ s.length then
      .ok { h with mem := Function.update h.mem dst (some (s.take n ++ d.drop n)) }
    else .error .memory_fault
  | _, _ => .error .memory_fault

/-- The loop `for (size_t i = start; i < start + count; ++i) body(i)`; the loops of
`tensor.cpp` are `forLoop body size_ 0`. -/
def forLoop {σ : Type} (body : Nat → σ → Except Exn σ) : Nat → Nat → σ → Except Exn σ
  | 0, _, s => .ok s
  | k + 1, i, s =>
    match body i s with
    | .ok s1 => forLoop body k (i + 1) s1
    | .error e => .error e

/-- The call `std::copy(values.begin(), values.end(), p + i)`. -/
def std_copy : List F → Nat → Nat → Heap F → Except Exn (Heap F)
  | [], _, _, h => .ok h
  | v :: vs, p, i, h =>
    match h.store p i v with
    | .ok h1 => std_copy vs p (i + 1) h1
    | .error e => .error e

/-- The call `std::fill(p, p + n, value)`. -/
def std_fill (h : Heap F) (p : Nat) (n : Nat) (value : F) : Except Exn (Heap F) :=
  forLoop (fun i hp => hp.store p i value) n 0 h

/-- The range constructor `std::vector<float>{p + i, p + i + count}`. -/
def vector_range (h : Heap F) (p : Nat) : Nat → Nat → Except Exn (List F)
  | 0, _ => .ok []
  | k + 1, i =>
    match h.load p i with
    | .ok v =>
      match vector_range h p k (i + 1) with
      | .ok vs => .ok (v :: vs)
      | .error e => .error e
    | .error e => .error e

/-- The default constructor `Tensor()` (`tensor.h`, line 21). -/
def Tensor.Tensor_default : Tensor :=
  { data_ := nullptr, size_ := 0, owns_memory_ := false }

/-- The constructor `Tensor::Tensor(size_t size)` (`tensor.cpp`, lines 11-17). -/
def Tensor.Tensor_size (h : Heap F) (size : Nat) : Tensor × Heap F :=
  if size > 0 then
    ({ data_ := (h.new_array size).1, size_ := size, owns_memory_ := true }, (h.new_array size).2)
  else
    ({ data_ := nullptr, size_ := size, owns_memory_ := true }, h)

/-- The constructor `Tensor::Tensor(const std::vector<float>&)` (lines 20-27). -/
def Tensor.Tensor_vector (h : Heap F) (values : List F) : Except Exn (Tensor × Heap F) :=
  if values.length > 0 then
    match std_copy values (h.new_array values.length).1 0 (h.new_array values.length).2 with
    | .ok h2 =>
      .ok ({ data_ := (h.new_array values.length).1, size_ := values.length,
             owns_memory_ := true }, h2)
    | .error e => .error e
  else
    .ok ({ data_ := nullptr, size_ := values.length, owns_memory_ := true }, h)

/-- The destructor `Tensor::~Tensor()` (lines 30-34). -/
def Tensor.destroy (h : Heap F) (t : Tensor) : Except Exn (Heap F) :=
  if t.owns_memory_ && t.data_ != nullptr then h.delete_array t.data_ else .ok h

/-- The copy constructor `Tensor::Tensor(const Tensor&)` (lines 37-44). -/
def Tensor.Tensor_copy (h : Heap F) (other : Tensor) : Except Exn (Tensor × Heap F) :=
  if other.size_ > 0 then
    match (h.new_array other.size_).2.memcpy (h.new_array other.size_).1 other.data_
        other.size_ with
    | .ok h2 =>
      .ok ({ data_ := (h.new_array other.size_).1, size_ := other.size_,
             owns_memory_ := true }, h2)
    | .error e => .error e
  else
    .ok ({ data_ := nullptr, size_ := other.size_, owns_memory_ := true }, h)

/-- Copy assignment `Tensor::operator=(const Tensor&)` (lines 47-66); `this` and
`other` are object addresses. -/
def Tensor.operator_assign_copy (s : State F) (this other : Nat) : Except Exn (State F) :=
  if this ≠ other then
    match (if (s.objs this).owns_memory_ && (s.objs this).data_ != nullptr
           then s.heap.delete_array (s.objs this).data_ else .ok s.heap) with
    | .error e => .error e
    | .ok h1 =>
      if (s.objs other).size_ > 0 then
        match (h1.new_array (s.objs other).size_).2.memcpy
            (h1.new_array (s.objs other).size_).1 (s.objs other).data_ (s.objs other).size_ with
        | .ok h3 =>
          .ok { objs := Function.update s.objs this
                  { data_ := (h1.new_array (s.objs other).size_).1,
                    size_ := (s.objs other).size_, owns_memory_ := true }
                heap := h3 }
        | .error e => .error e
      else
        .ok { objs := Function.update s.objs this
                { data_ := nullptr, size_ := (s.objs other).size_, owns_memory_ := true }
              heap := h1 }
  else .ok s

/-- The move constructor `Tensor::Tensor(Tensor&&)` (lines 69-74): the new object,
and `other` as it is left. -/
def Tensor.Tensor_move (other : Tensor) : Tensor × Tensor :=
  ({ data_ := other.data_, size_ := other.size_, owns_memory_ := other.owns_memory_ },
   { data_ := nullptr, size_ := 0, owns_memory_ := false })

/-- Move assignment `Tensor::operator=(Tensor&&)` (lines 77-95); `this` and `other`
are object addresses. -/
def Tensor.operator_assign_move (s : State F) (this other : Nat) : Except Exn (State F) :=
  if this ≠ other then
    match (if (s.objs this).owns_memory_ && (s.objs this).data_ != nullptr
           then s.heap.delete_array (s.objs this).data_ else .ok s.heap) with
    | .error e => .error e
    | .ok h1 =>
      .ok { objs := Function.update
                      (Function.update s.objs this
                        { data_ := (s.objs other).data_, size_ := (s.objs other).size_,
                          owns_memory_ := (s.objs other).owns_memory_ })
                      other { data_ := nullptr, size_ := 0, owns_memory_ := false }
            heap := h1 }
  else .ok s

/-- The mutable `Tensor::operator[]` (lines 98-103): the reference `data_[idx]`, as
a block address and an offset. -/
def Tensor.operator_index (t : Tensor) (idx : Nat) : Except Exn (Nat × Nat) :=
  if idx ≥ t.size_ then .error .out_of_range else .ok (t.data_, idx)

/-- The const `Tensor::operator[]` (lines 105-110). -/
def Tensor.operator_index_const (t : Tensor) (idx : Nat) : Except Exn (Nat × Nat) :=
  if idx ≥ t.size_ then .error .out_of_range else .ok (t.data_, idx)

/-- Indexed read `t[idx]` through the const `operator[]`. -/
def Tensor.get (h : Heap F) (t : Tensor) (idx : Nat) : Except Exn F :=
  match t.operator_index_const idx with
  | .ok ref => h.load ref.1 ref.2
  | .error e => .error e

/-- Indexed read `t[idx]` through the mutable `operator[]`. -/
def Tensor.get_mut (h : Heap F) (t : Tensor) (idx : Nat) : Except Exn F :=
  match t.operator_index idx with
  | .ok ref => h.load ref.1 ref.2
  | .error e => .error e

/-- Indexed write `t[idx] = v` through the mutable `operator[]`. -/
def Tensor.set (h : Heap F) (t : Tensor) (idx : Nat) (v : F) : Except Exn (Heap F) :=
  match t.operator_index idx with
  | .ok ref => h.store ref.1 ref.2 v
  | .error e => .error e

/-- Addition `Tensor::operator+` (lines 113-123). -/
def Tensor.operator_plus [Add F] (h : Heap F) (this other : Tensor) :
    Except Exn (Tensor × Heap F) :=
  if this.size_ ≠ other.size_ then .error .invalid_argument
  else
    match forLoop (fun i hp =>
        match hp.load this.data_ i with
        | .ok x =>
          match hp.load other.data_ i with
          | .ok y => hp.store (Tensor.Tensor_size h this.size_).1.data_ i (x + y)
          | .error e => .error e
        | .error e => .error e) this.size_ 0 (Tensor.Tensor_size h this.size_).2 with
    | .ok h2 => .ok ((Tensor.Tensor_size h this.size_).1, h2)
    | .error e => .error e

/-- Subtraction `Tensor::operator-` (lines 126-136). -/
def Tensor.operator_minus [Sub F] (h : Heap F) (this other : Tensor) :
    Except Exn (Tensor × Heap F) :=
  if this.size_ ≠ other.size_ then .error .invalid_argument
  else
    match forLoop (fun i hp =>
        match hp.load this.data_ i with
        | .ok x =>
          match hp.load other.data_ i with
          | .ok y => hp.store (Tensor.Tensor_size h this.size_).1.data_ i (x - y)
          | .error e => .error e
        | .error e => .error e) this.size_ 0 (Tensor.Tensor_size h this.size_).2 with
    | .ok h2 => .ok ((Tensor.Tensor_size h this.size_).1, h2)
    | .error e => .error e

/-- Scalar multiplication `Tensor::operator*` (lines 139-145). -/
def Tensor.operator_mul [Mul F] (h : Heap F) (this : Tensor) (scalar : F) :
    Except Exn (Tensor × Heap F) :=
  match forLoop (fun i hp =>
      match hp.load this.data_ i with
      | .ok x => hp.store (Tensor.Tensor_size h this.size_).1.data_ i (x * scalar)
      | .error e => .error e) this.size_ 0 (Tensor.Tensor_size h this.size_).2 with
  | .ok h2 => .ok ((Tensor.Tensor_size h this.size_).1, h2)
  | .error e => .error e

/-- The member `Tensor::fill` (line 148). -/
def Tensor.fill (h : Heap F) (t : Tensor) (value : F) : Except Exn (Heap F) :=
  std_fill h t.data_ t.size_ value

/-- The member `Tensor::to_vector` (line 163). -/
def Tensor.to_vector (h : Heap F) (t : Tensor) : Except Exn (List F) :=
  vector_range h t.data_ t.size_ 0

/-- The factory `Tensor::zeros` (lines 166-170). -/
def Tensor.zeros [Zero F] (h : Heap F) (size : Nat) : Except Exn (Tensor × Heap F) :=
  match Tensor.fill (Tensor.Tensor_size h size).2 (Tensor.Tensor_size h size).1 (0 : F) with
  | .ok h2 => .ok ((Tensor.Tensor_size h size).1, h2)
  | .error e => .error e

/-- The factory `Tensor::ones` (lines 172-176). -/
def Tensor.ones [One F] (h : Heap F) (size : Nat) : Except Exn (Tensor × Heap F) :=
  match Tensor.fill (Tensor.Tensor_size h size).2 (Tensor.Tensor_size h size).1 (1 : F) with
  | .ok h2 => .ok ((Tensor.Tensor_size h size).1, h2)
  | .error e => .error e

/-- The class invariant a `Tensor` object satisfies in a heap: either it has no
storage and length 0, or `data_` is a block handed out earlier that is live and
has exactly `size_` cells. -/
def Tensor.Valid (h : Heap F) (t : Tensor) : Prop :=
  if t.data_ = nullptr then t.size_ = 0
  else 0 < t.size_ ∧ t.data_ ≤ h.next ∧ (h.mem t.data_).map List.length = some t.size_

instance (h : Heap F) (t : Tensor) : Decidable (t.Valid h) := by
  unfold Tensor.Valid; infer_instance

/-- The cells of the buffer of a tensor (none when it has no storage). -/
def Tensor.cells (h : Heap F) (t : Tensor) : List (Cell F) :=
  if t.data_ = nullptr then [] else (h.mem t.data_).getD []

/-- In heap `h`, mutating the tensor `x` leaves the tensor `y` as it is: an indexed
write `x[i] = v` that is in range succeeds and changes `x[i]` to `v`, `x.fill(v)`
succeeds, and after either every read of `y` and its conversion to a vector give
what they gave before. -/
def Tensor.writes_preserve (h : Heap F) (x y : Tensor) (i : Nat) (v : F) : Prop :=
  (i < x.size_ → ∃ h2, Tensor.set h x i v = .ok h2 ∧ Tensor.get h2 x i = .ok v) ∧
  (∀ h2, Tensor.set h x i v = .ok h2 →
    (∀ j, Tensor.get h2 y j = Tensor.get h y j) ∧
      Tensor.to_vector h2 y = Tensor.to_vector h y) ∧
  (∃ h2, Tensor.fill h x v = .ok h2 ∧
    (∀ j, Tensor.get h2 y j = Tensor.get h y j) ∧
      Tensor.to_vector h2 y = Tensor.to_vector h y)

/-- A heap with no allocation. -/
def Heap.empty (junk : F) : Heap F :=
  { mem := fun _ => none, next := 0, garbage := fun _ _ => junk }

/-- A heap holding the two operands of `test_tensor_operations` (`test_tensor.cpp`,
lines 79-80), with whole numbers as elements: `[1, 2, 3]` in block 1 and
`[4, 5, 6]` in block 2. -/
def test_heap : Heap Int :=
  { mem := fun p =>
      if p = 1 then some [Cell.mk 1 true, Cell.mk 2 true, Cell.mk 3 true]
      else if p = 2 then some [Cell.mk 4 true, Cell.mk 5 true, Cell.mk 6 true]
      else none
    next := 2
    garbage := fun _ _ => 0 }

/-- The tensor `tensor_a` of `test_tensor_operations`, in `test_heap`. -/
def tensor_a : Tensor := { data_ := 1, size_ := 3, owns_memory_ := true }

/-- The tensor `tensor_b` of `test_tensor_operations`, in `test_heap`. -/
def tensor_b : Tensor := { data_ := 2, size_ := 3, owns_memory_ := true }

/-- A program state over `test_heap`: object 0 is `tensor_a`, object 1 is
`tensor_b`, every other object is a default-constructed tensor. -/
def test_state : State Int :=
  { objs := fun x => if x = 0 then tensor_a else if x = 1 then tensor_b
      else Tensor.Tensor_default
    heap := test_heap }

/-- The factory `Tensor::random` (lines 178-188). The static generator is the
state `g`, and `distribution` is a call `distribution(generator)`: it returns
the draw and the state the generator is left in. -/
def Tensor.random {G : Type} (distribution : G → F × G) (h : Heap F) (g : G) (size : Nat) :
    Except Exn (Tensor × Heap F × G) :=
  match forLoop (fun i (st : Heap F × G) =>
      match st.1.store (Tensor.Tensor_size h size).1.data_ i (distribution st.2).1 with
      | .ok h1 => .ok (h1, (distribution st.2).2)
      | .error e => .error e) size 0 ((Tensor.Tensor_size h size).2, g) with
  | .ok st => .ok ((Tensor.Tensor_size h size).1, st.1, st.2)
  | .error e => .error e

/-- Every cell of the buffer of the tensor has been written. -/
def Tensor.initialized (h : Heap F) (t : Tensor) : Prop :=
  ∀ c ∈ t.cells h, c.init = true

instance (h : Heap F) (t : Tensor) : Decidable (t.initialized h) := by
  unfold Tensor.initialized; infer_instance

/-- A generator for the examples: its state is a counter, and the draws alternate
between 0 and 1. -/
def test_distribution (g : Nat) : Int × Nat := ((g % 2 : Nat), g + 1)

/-! ### Programs over several tensors -/

/-- The operations of `Tensor` that change a program state; the numbers are object
addresses (`x` is the object constructed, or the one that receives a returned
tensor). Reading operations (`operator[]` for reading, `to_vector`, `print`,
`size`) leave the state as it is and are not listed. -/
inductive Op (F G : Type) where
  | construct_default (x : Nat)
  | construct_size (x size : Nat)
  | construct_vector (x : Nat) (values : List F)
  | construct_copy (x other : Nat)
  | construct_move (x other : Nat)
  | assign_copy (this other : Nat)
  | assign_move (this other : Nat)
  | destroy (x : Nat)
  | set (x idx : Nat) (v : F)
  | fill (x : Nat) (v : F)
  | plus (x this other : Nat)
  | minus (x this other : Nat)
  | mul (x this : Nat) (scalar : F)
  | zeros (x size : Nat)
  | ones (x size : Nat)
  | random (x size : Nat) (g : G)

/-- One operation applied to a state. An operation that throws leaves the state as
it is; a constructor may reuse the address of an earlier object; after its
destructor has run an object is gone, and its address holds the fields of a
tensor not yet given storage. -/
def State.step [Add F] [Sub F] [Mul F] [Zero F] [One F] {G : Type}
    (distribution : G → F × G) (s : State F) : Op F G → State F
  | .construct_default x =>
    { objs := Function.update s.objs x Tensor.Tensor_default, heap := s.heap }
  | .construct_size x size =>
    { objs := Function.update s.objs x (Tensor.Tensor_size s.heap size).1
      heap := (Tensor.Tensor_size s.heap size).2 }
  | .construct_vector x values =>
    match Tensor.Tensor_vector s.heap values with
    | .ok r => { objs := Function.update s.objs x r.1, heap := r.2 }
    | .error _ => s
  | .construct_copy x other =>
    if x = other then s
    else
      match Tensor.Tensor_copy s.heap (s.objs other) with
      | .ok r => { objs := Function.update s.objs x r.1, heap := r.2 }
      | .error _ => s
  | .construct_move x other =>
    if x = other then s
    else
      { objs := Function.update (Function.update s.objs x (Tensor.Tensor_move (s.objs other)).1)
          other (Tensor.Tensor_move (s.objs other)).2
        heap := s.heap }
  | .assign_copy this other =>
    match Tensor.operator_assign_copy s this other with
    | .ok s1 => s1
    | .error _ => s
  | .assign_move this other =>
    match Tensor.operator_assign_move s this other with
    | .ok s1 => s1
    | .error _ => s
  | .destroy x =>
    match Tensor.destroy s.heap (s.objs x) with
    | .ok h1 => { objs := Function.update s.objs x Tensor.Tensor_default, heap := h1 }
    | .error _ => s
  | .set x idx v =>
    match Tensor.set s.heap (s.objs x) idx v with
    | .ok h1 => { objs := s.objs, heap := h1 }
    | .error _ => s
  | .fill x v =>
    match Tensor.fill s.heap (s.objs x) v with
    | .ok h1 => { objs := s.objs, heap := h1 }
    | .error _ => s
  | .plus x this other =>
    match Tensor.operator_plus s.heap (s.objs this) (s.objs other) with
    | .ok r => { objs := Function.update s.objs x r.1, heap := r.2 }
    | .error _ => s
  | .minus x this other =>
    match Tensor.operator_minus s.heap (s.objs this) (s.objs other) with
    | .ok r => { objs := Function.update s.objs x r.1, heap := r.2 }
    | .error _ => s
  | .mul x this scalar =>
    match Tensor.operator_mul s.heap (s.objs this) scalar with
    | .ok r => { objs := Function.update s.objs x r.1, heap := r.2 }
    | .error _ => s
  | .zeros x size =>
    match Tensor.zeros s.heap size with
    | .ok r => { objs := Function.update s.objs x r.1, heap := r.2 }
    | .error _ => s
  | .ones x size =>
    match Tensor.ones s.heap size with
    | .ok r => { objs := Function.update s.objs x r.1, heap := r.2 }
    | .error _ => s
  | .random x size g =>
    match Tensor.random distribution s.heap g size with
    | .ok r => { objs := Function.update s.objs x r.1, heap := r.2.1 }
    | .error _ => s

/-- A sequence of operations applied to a state, in order. -/
def State.run [Add F] [Sub F] [Mul F] [Zero F] [One F] {G : Type}
    (distribution : G → F × G) (s : State F) (ops : List (Op F G)) : State F :=
  ops.foldl (State.step distribution) s

/-- The state of a program before any tensor is constructed: nothing allocated. -/
def State.initial (garbage : Nat → Nat → F) : State F :=
  { objs := fun _ => Tensor.Tensor_default
    heap := { mem := fun _ => none, next := 0, garbage := garbage } }

/-- The tensors of a state are well formed: each satisfies the class invariant, each
buffer is owned by the tensor that holds it, and no two tensors hold the same
buffer. -/
def State.WF (s : State F) : Prop :=
  (∀ x, (s.objs x).Valid s.heap) ∧
  (∀ x, (s.objs x).data_ ≠ nullptr → (s.objs x).owns_memory_ = true) ∧
  (∀ x y, x ≠ y → (s.objs x).data_ ≠ nullptr → (s.objs x).data_ ≠ (s.objs y).data_)

/-! ### Output stream and `print` -/

/-- The `size_t` subtraction `a - b`, which wraps modulo `2^64`. -/
def size_t_sub (a b : Nat) : Nat := (a + 2 ^ 64 - b % 2 ^ 64) % 2 ^ 64

/-- One insertion into `std::cout`: a string literal, a `float` together with the
format flags in force when it is inserted, or a character. -/
inductive Out (F : Type) where
  | text (s : String)
  | value (fixed : Bool) (precision : Nat) (v : F)
  | char (c : Char)

/-- The state of `std::cout`: the floating-point format flags, which the manipulators
`std::fixed` and `std::setprecision` set and which stay set, and what has been
inserted so far. -/
structure OStream (F : Type) where
  fixed : Bool
  precision : Nat
  out : List (Out F)

/-- The insertion `os << "literal"`. -/
def OStream.put_text (os : OStream F) (s : String) : OStream F :=
  { os with out := os.out ++ [Out.text s] }

/-- The insertion `os << std::fixed`. -/
def OStream.put_fixed (os : OStream F) : OStream F :=
  { os with fixed := true }

/-- The insertion `os << std::setprecision(n)`. -/
def OStream.put_setprecision (os : OStream F) (n : Nat) : OStream F :=
  { os with precision := n }

/-- The insertion `os << v` of a `float`, formatted by the flags in force. -/
def OStream.put_value (os : OStream F) (v : F) : OStream F :=
  { os with out := os.out ++ [Out.value os.fixed os.precision v] }

/-- The insertion `os << c` of a character. -/
def OStream.put_char (os : OStream F) (c : Char) : OStream F :=
  { os with out := os.out ++ [Out.char c] }

/-- The body of the loop of `Tensor::print` (lines 154-157) at index `i`. -/
def Tensor.print_body (h : Heap F) (t : Tensor) (i : Nat) (o : OStream F) :
    Except Exn (OStream F) :=
  match h.load t.data_ i with
  | .ok v =>
    if i < size_t_sub t.size_ 1 then
      .ok ((((o.put_fixed).put_setprecision 4).put_value v).put_text ", ")
    else
      .ok (((o.put_fixed).put_setprecision 4).put_value v)
  | .error e => .error e

/-- The member `Tensor::print` (lines 151-160), writing to the stream `os`. -/
def Tensor.print (h : Heap F) (t : Tensor) (os : OStream F) : Except Exn (OStream F) :=
  match forLoop (Tensor.print_body h t) t.size_ 0 (os.put_text "Tensor([") with
  | .ok o => .ok ((o.put_text "])").put_char '\n')
  | .error e => .error e

/-- The characters an insertion puts on the output, for a formatter `fmt` of `float`
values under given flags. -/
def Out.chars (fmt : Bool → Nat → F → String) : Out F → List Char
  | .text s => s.data
  | .value fixed precision v => (fmt fixed precision v).data
  | .char c => [c]

/-- The text on the output after a sequence of insertions. -/
def render (fmt : Bool → Nat → F → String) (out : List (Out F)) : String :=
  String.mk ((out.map (Out.chars fmt)).flatten)

/-- Whether an insertion is the separator literal `", "`. -/
def Out.is_separator : Out F → Bool
  | .text s => s == ", "
  | _ => false

/-- Whether an insertion is a `float` value. -/
def Out.is_value : Out F → Bool
  | .value _ _ _ => true
  | _ => false

/-- A number with four decimal digits, given in ten-thousandths, written in
fixed-point: `25000` is written `2.5000`. -/
def fixed4 (n : Int) : String :=
  (if n < 0 then "-" else "") ++ toString (n.natAbs / 10000) ++ "." ++
    String.mk (List.replicate (4 - (toString (n.natAbs % 10000)).length) '0') ++
    toString (n.natAbs % 10000)

/-- A heap holding the tensor of the rendering scenario, `[1.0, 2.5]`, in block 1,
its elements given in ten-thousandths. -/
def print_heap : Heap Int :=
  { mem := fun p => if p = 1 then some [Cell.mk 10000 true, Cell.mk 25000 true] else none
    next := 1
    garbage := fun _ _ => 0 }

/-- The tensor `[1.0, 2.5]` in `print_heap`. -/
def print_tensor : Tensor := { data_ := 1, size_ := 2, owns_memory_ := true }

/-- A stream on which nothing has been written, with the default flags of
`std::cout`. -/
def OStream.fresh : OStream F := { fixed := false, precision := 6, out := [] }

/-! ## Loops and memory primitives -/

/-- A loop that keeps an invariant at every iteration runs to completion and ends in
a state satisfying the invariant. -/
theorem forLoop_invariant {σ : Type} (body : Nat → σ → Except Exn σ) (P : Nat → σ → Prop) :
    ∀ (k i : Nat) (s : σ), P i s →
      (∀ j t, i ≤ j → j < i + k → P j t → ∃ t', body j t = .ok t' ∧ P (j + 1) t') →
      ∃ s', forLoop body k i s = .ok s' ∧ P (i + k) s' := by
  intro k
  induction k with
  | zero =>
    intro i s hP _
    exact ⟨s, rfl, by simpa using hP⟩
  | succ k ih =>
    intro i s hP hstep
    obtain ⟨s1, hb, hP1⟩ := hstep i s (le_refl _) (by omega) hP
    obtain ⟨s2, hl, hP2⟩ :=
      ih (i + 1) s1 hP1 (fun j t h1 h2 hPj => hstep j t (by omega) (by omega) hPj)
    refine ⟨s2, ?_, ?_⟩
    · simp [forLoop, hb, hl]
    · have hidx : i + (k + 1) = i + 1 + k := by omega
      rw [hidx]
      exact hP2

theorem Heap.store_ok (h : Heap F) (p : Nat) (i : Nat) (v : F) (cells : List (Cell F))
    (hm : h.mem p = some cells) (hi : i < cells.length) :
    h.store p i v =
      .ok { h with mem := Function.update h.mem p (some (cells.set i (Cell.mk v true))) } := by
  simp [Heap.store, hm, hi]

theorem Heap.load_ok (h : Heap F) (p : Nat) (i : Nat) (cells : List (Cell F)) (c : Cell F)
    (hm : h.mem p = some cells) (hc : cells[i]? = some c) : h.load p i = .ok c.val := by
  simp [Heap.load, hm, hc]

/-- Two heaps holding the same block at `p` give the same reads of `p`. -/
theorem Heap.load_congr (h h' : Heap F) (p : Nat) (i : Nat) (hm : h'.mem p = h.mem p) :
    h'.load p i = h.load p i := by
  simp [Heap.load, hm]

/-- A loop whose iteration `i` stores one value into cell `i` of a live block `r` of
`n` cells, and whose value depends only on the blocks other than `r`, completes;
it changes nothing but block `r`, every cell of which it has written. -/
theorem forLoop_store (hs : Heap F) (r : Nat) (n : Nat) (cells0 : List (Cell F))
    (hr : hs.mem r = some cells0) (hlen : cells0.length = n) (Q : Nat → F → Prop)
    (body : Nat → Heap F → Except Exn (Heap F))
    (hbody : ∀ i hp, i < n → (∀ p, p ≠ r → hp.mem p = hs.mem p) →
      ∃ v, body i hp = hp.store r i v ∧ Q i v) :
    ∃ h' cells, forLoop body n 0 hs = .ok h' ∧ h'.next = hs.next ∧ h'.garbage = hs.garbage ∧
      (∀ p, p ≠ r → h'.mem p = hs.mem p) ∧ h'.mem r = some cells ∧ cells.length = n ∧
      ∀ i, i < n → ∃ v, cells[i]? = some (Cell.mk v true) ∧ Q i v := by
  have key := forLoop_invariant body
    (fun j hp => hp.next = hs.next ∧ hp.garbage = hs.garbage ∧
      (∀ p, p ≠ r → hp.mem p = hs.mem p) ∧
      ∃ cells, hp.mem r = some cells ∧ cells.length = n ∧
        ∀ i, i < j → ∃ v, cells[i]? = some (Cell.mk v true) ∧ Q i v)
    n 0 hs ⟨rfl, rfl, fun _ _ => rfl, cells0, hr, hlen, fun i hi => absurd hi (Nat.not_lt_zero i)⟩
    (by
      intro j hp _ hj hP
      obtain ⟨hnext, hgarb, hframe, cells, hcells, hclen, hdone⟩ := hP
      obtain ⟨v, hv, hQ⟩ := hbody j hp (by omega) hframe
      have hjlt : j < cells.length := by omega
      refine ⟨{ hp with mem := Function.update hp.mem r (some (cells.set j (Cell.mk v true))) },
        by rw [hv]; exact Heap.store_ok hp r j v cells hcells hjlt, hnext, hgarb, ?_, ?_⟩
      · intro p hp'
        simp [Function.update_noteq hp', hframe p hp']
      · refine ⟨cells.set j (Cell.mk v true), by simp, by simp [hclen], ?_⟩
        intro i hi
        by_cases hij : i = j
        · subst hij
          exact ⟨v, by simp [hjlt], hQ⟩
        · obtain ⟨w, hw, hQw⟩ := hdone i (by omega)
          exact ⟨w, by rw [List.getElem?_set_ne (Ne.symm hij)]; exact hw, hQw⟩)
  obtain ⟨h', hrun, hnext, hgarb, hframe, cells, hcells, hclen, hdone⟩ := key
  exact ⟨h', cells, hrun, hnext, hgarb, hframe, hcells, hclen, fun i hi => hdone i (by omega)⟩

/-- Reading a range that lies inside a live block returns the values of its cells. -/
theorem vector_range_ok (h : Heap F) (p : Nat) (cells : List (Cell F))
    (hm : h.mem p = some cells) :
    ∀ (k i : Nat), i + k ≤ cells.length →
      vector_range h p k i = .ok (((cells.map Cell.val).drop i).take k) := by
  intro k
  induction k with
  | zero => intro i _; simp [vector_range]
  | succ k ih =>
    intro i hik
    have hi : i < cells.length := by omega
    have hload : h.load p i = .ok (cells[i]).val :=
      Heap.load_ok h p i cells cells[i] hm (List.getElem?_eq_getElem hi)
    have hi' : i < (cells.map Cell.val).length := by simpa using hi
    have hdrop : (cells.map Cell.val).drop i =
        (cells[i]).val :: (cells.map Cell.val).drop (i + 1) := by
      rw [List.drop_eq_getElem_cons hi']
      simp
    rw [hdrop]
    simp only [vector_range, hload, ih (i + 1) (by omega), List.take_succ_cons]

/-- Copying a list into a live block that has room for it completes and overwrites
exactly the target cells. -/
theorem std_copy_ok (p : Nat) :
    ∀ (vs : List F) (i : Nat) (h : Heap F) (cells : List (Cell F)),
      h.mem p = some cells → i + vs.length ≤ cells.length →
      ∃ h' cells', std_copy vs p i h = .ok h' ∧ h'.next = h.next ∧ h'.garbage = h.garbage ∧
        (∀ q, q ≠ p → h'.mem q = h.mem q) ∧ h'.mem p = some cells' ∧
        cells'.length = cells.length ∧
        ∀ m, cells'[m]? =
          if i ≤ m ∧ m < i + vs.length then (vs[m - i]?).map (fun v => Cell.mk v true)
          else cells[m]? := by
  intro vs
  induction vs with
  | nil =>
    intro i h cells hm _
    refine ⟨h, cells, rfl, rfl, rfl, fun _ _ => rfl, hm, rfl, ?_⟩
    intro m
    have hno : ¬ (i ≤ m ∧ m < i + ([] : List F).length) := by
      simp only [List.length_nil]
      omega
    rw [if_neg hno]
  | cons v vs ih =>
    intro i h cells hm hlen
    simp only [List.length_cons] at hlen
    have hi : i < cells.length := by omega
    obtain ⟨h', cells', hrun, hnext, hgarb, hframe, hblock, hlen', hget⟩ :=
      ih (i + 1) { h with mem := Function.update h.mem p (some (cells.set i (Cell.mk v true))) }
        (cells.set i (Cell.mk v true)) (by simp) (by simp; omega)
    refine ⟨h', cells', ?_, hnext, hgarb, ?_, hblock, by simpa using hlen', ?_⟩
    · simp [std_copy, Heap.store_ok h p i v cells hm hi, hrun]
    · intro q hq
      rw [hframe q hq]
      simp [Function.update_noteq hq]
    · intro m
      rw [hget m]
      by_cases h1 : m = i
      · subst h1
        have hno : ¬ (m + 1 ≤ m ∧ m < m + 1 + vs.length) := by omega
        have hyes : m ≤ m ∧ m < m + (v :: vs).length := by
          simp only [List.length_cons]
          omega
        rw [if_neg hno, if_pos hyes]
        simp [hi]
      · by_cases h2 : i + 1 ≤ m ∧ m < i + 1 + vs.length
        · have hyes : i ≤ m ∧ m < i + (v :: vs).length := by
            simp only [List.length_cons]
            omega
          have hidx : m - i = (m - (i + 1)) + 1 := by omega
          rw [if_pos h2, if_pos hyes, hidx, List.getElem?_cons_succ]
        · have hno : ¬ (i ≤ m ∧ m < i + (v :: vs).length) := by
            simp only [List.length_cons]
            omega
          rw [if_neg h2, if_neg hno, List.getElem?_set_ne (Ne.symm h1)]

/-! ## Tensors in a heap -/

theorem Tensor.Valid.null {h : Heap F} {t : Tensor} (hv : t.Valid h) (hn : t.data_ = nullptr) :
    t.size_ = 0 := by
  unfold Tensor.Valid at hv
  rw [if_pos hn] at hv
  exact hv

theorem Tensor.Valid.live {h : Heap F} {t : Tensor} (hv : t.Valid h) (hn : t.data_ ≠ nullptr) :
    0 < t.size_ ∧ t.data_ ≤ h.next ∧
      ∃ cells, h.mem t.data_ = some cells ∧ cells.length = t.size_ := by
  unfold Tensor.Valid at hv
  rw [if_neg hn] at hv
  obtain ⟨h1, h2, h3⟩ := hv
  refine ⟨h1, h2, ?_⟩
  cases hm : h.mem t.data_ with
  | none => simp [hm] at h3
  | some cells => exact ⟨cells, rfl, by simpa [hm] using h3⟩

theorem Tensor.Valid.data_ne_null {h : Heap F} {t : Tensor} (hv : t.Valid h) (hs : 0 < t.size_) :
    t.data_ ≠ nullptr := by
  intro hn
  have := hv.null hn
  omega

theorem Tensor.Valid.mem_eq {h : Heap F} {t : Tensor} (hv : t.Valid h) (hn : t.data_ ≠ nullptr) :
    h.mem t.data_ = some (t.cells h) := by
  obtain ⟨_, _, cells, hm, _⟩ := hv.live hn
  simp [Tensor.cells, hn, hm]

theorem Tensor.Valid.cells_length {h : Heap F} {t : Tensor} (hv : t.Valid h) :
    (t.cells h).length = t.size_ := by
  by_cases hn : t.data_ = nullptr
  · simp [Tensor.cells, hn, hv.null hn]
  · obtain ⟨_, _, cells, hm, hl⟩ := hv.live hn
    simp [Tensor.cells, hn, hm, hl]

/-- A tensor is still valid, with the same cells, in a heap that kept its block and
did not take back addresses. -/
theorem Tensor.Valid.frame {h h' : Heap F} {t : Tensor} (hv : t.Valid h)
    (hm : h'.mem t.data_ = h.mem t.data_) (hnext : h.next ≤ h'.next) : t.Valid h' := by
  by_cases hn : t.data_ = nullptr
  · unfold Tensor.Valid
    rw [if_pos hn]
    exact hv.null hn
  · obtain ⟨h1, h2, cells, hc, hl⟩ := hv.live hn
    unfold Tensor.Valid
    rw [if_neg hn, hm, hc]
    exact ⟨h1, by omega, by simp [hl]⟩

theorem Tensor.cells_congr {h h' : Heap F} {t : Tensor} (hm : h'.mem t.data_ = h.mem t.data_) :
    t.cells h' = t.cells h := by
  simp [Tensor.cells, hm]

theorem Tensor.get_congr {h h' : Heap F} {t : Tensor} (hm : h'.mem t.data_ = h.mem t.data_)
    (i : Nat) : Tensor.get h' t i = Tensor.get h t i := by
  unfold Tensor.get Tensor.operator_index_const
  by_cases hi : i ≥ t.size_
  · simp [hi]
  · simp [hi, Heap.load, hm]

theorem vector_range_congr {h h' : Heap F} {p : Nat} (hm : h'.mem p = h.mem p) :
    ∀ (k i : Nat), vector_range h' p k i = vector_range h p k i := by
  intro k
  induction k with
  | zero => intro i; rfl
  | succ k ih => intro i; simp [vector_range, ih (i + 1), Heap.load, hm]

theorem Tensor.to_vector_congr {h h' : Heap F} {t : Tensor}
    (hm : h'.mem t.data_ = h.mem t.data_) : Tensor.to_vector h' t = Tensor.to_vector h t :=
  vector_range_congr hm t.size_ 0

theorem Tensor.get_eq_load (h : Heap F) (t : Tensor) (i : Nat) (hi : i < t.size_) :
    Tensor.get h t i = h.load t.data_ i := by
  have hno : ¬ i ≥ t.size_ := by omega
  simp [Tensor.get, Tensor.operator_index_const, hno]

theorem Tensor.get_mut_eq_get (h : Heap F) (t : Tensor) (i : Nat) :
    Tensor.get_mut h t i = Tensor.get h t i := rfl

/-- Reading a valid tensor inside its bounds returns the value of the cell. -/
theorem Tensor.Valid.load_cell {h : Heap F} {t : Tensor} (hv : t.Valid h) {i : Nat}
    (hi : i < t.size_) :
    ∃ c, (t.cells h)[i]? = some c ∧ h.load t.data_ i = .ok c.val := by
  have hn : t.data_ ≠ nullptr := hv.data_ne_null (by omega)
  have hlen := hv.cells_length
  have hi' : i < (t.cells h).length := by omega
  exact ⟨(t.cells h)[i], List.getElem?_eq_getElem hi',
    Heap.load_ok h t.data_ i (t.cells h) _ (hv.mem_eq hn) (List.getElem?_eq_getElem hi')⟩

theorem Tensor.Valid.get_ok {h : Heap F} {t : Tensor} (hv : t.Valid h) {i : Nat}
    (hi : i < t.size_) :
    ∃ c, (t.cells h)[i]? = some c ∧ Tensor.get h t i = .ok c.val := by
  obtain ⟨c, hc, hl⟩ := hv.load_cell hi
  exact ⟨c, hc, by rw [Tensor.get_eq_load h t i hi, hl]⟩

/-- Converting a valid tensor to a vector returns the values of its cells, in order. -/
theorem Tensor.Valid.to_vector_ok {h : Heap F} {t : Tensor} (hv : t.Valid h) :
    Tensor.to_vector h t = .ok ((t.cells h).map Cell.val) := by
  by_cases hn : t.data_ = nullptr
  · simp [Tensor.to_vector, Tensor.cells, hn, hv.null hn, vector_range]
  · have hlen := hv.cells_length
    have hr := vector_range_ok h t.data_ (t.cells h) (hv.mem_eq hn) t.size_ 0 (by omega)
    unfold Tensor.to_vector
    rw [hr, List.drop_zero, List.take_of_length_le (by simp [hlen])]

theorem Tensor_size_zero (h : Heap F) :
    Tensor.Tensor_size h 0 = ({ data_ := nullptr, size_ := 0, owns_memory_ := true }, h) := by
  simp [Tensor.Tensor_size]

theorem Tensor_size_pos (h : Heap F) (n : Nat) (hn : 0 < n) :
    Tensor.Tensor_size h n =
      ({ data_ := h.next + 1, size_ := n, owns_memory_ := true }, (h.new_array n).2) := by
  simp [Tensor.Tensor_size, hn, Heap.new_array]

/-- A valid tensor is not stored at the address the next allocation returns. -/
theorem Tensor.Valid.ne_fresh {h : Heap F} {t : Tensor} (hv : t.Valid h) :
    t.data_ ≠ h.next + 1 := by
  by_cases hn : t.data_ = nullptr
  · rw [hn]
    simp
  · have := (hv.live hn).2.1
    omega

/-- The pattern shared by `operator+`, `operator-`, `operator*` and the factories: a
tensor made by `Tensor(n)` followed by a loop that stores into each of its cells.
The loop completes, the new tensor is valid and fully written, and no block that
existed before is touched. -/
theorem fresh_loop_ok (h : Heap F) (n : Nat) (Q : Nat → F → Prop)
    (body : Nat → Heap F → Except Exn (Heap F))
    (hbody : ∀ i hp, i < n → (∀ p, p ≠ h.next + 1 → hp.mem p = h.mem p) →
      ∃ v, body i hp = hp.store (h.next + 1) i v ∧ Q i v) :
    ∃ h', forLoop body n 0 (Tensor.Tensor_size h n).2 = .ok h' ∧
      (Tensor.Tensor_size h n).1.Valid h' ∧
      (∀ p, p ≠ h.next + 1 → h'.mem p = h.mem p) ∧
      h.next ≤ h'.next ∧ h'.garbage = h.garbage ∧
      ((Tensor.Tensor_size h n).1.cells h').length = n ∧
      ∀ i, i < n →
        ∃ v, ((Tensor.Tensor_size h n).1.cells h')[i]? = some (Cell.mk v true) ∧ Q i v := by
  rcases Nat.eq_zero_or_pos n with hn | hn
  · subst hn
    rw [Tensor_size_zero]
    refine ⟨h, rfl, by simp [Tensor.Valid], fun _ _ => rfl, le_refl _, rfl,
      by simp [Tensor.cells], ?_⟩
    intro i hi
    omega
  · rw [Tensor_size_pos h n hn]
    have hfresh : (h.new_array n).2.mem (h.next + 1) =
        some ((List.range n).map fun i => Cell.mk (h.garbage (h.next + 1) i) false) := by
      simp [Heap.new_array]
    have hold : ∀ p, p ≠ h.next + 1 → (h.new_array n).2.mem p = h.mem p := by
      intro p hp
      simp [Heap.new_array, Function.update_noteq hp]
    obtain ⟨h', cells, hrun, hnext, hgarb, hframe, hcells, hclen, hdone⟩ :=
      forLoop_store (h.new_array n).2 (h.next + 1) n _ hfresh (by simp) Q body
        (fun i hp hi hagree => hbody i hp hi (fun p hp' => by rw [hagree p hp', hold p hp']))
    have hnext' : h'.next = h.next + 1 := by rw [hnext]; rfl
    have hcells' : Tensor.cells h' { data_ := h.next + 1, size_ := n, owns_memory_ := true } =
        cells := by
      simp [Tensor.cells, hcells]
    refine ⟨h', hrun, ?_, fun p hp => by rw [hframe p hp, hold p hp], by omega,
      by rw [hgarb]; rfl, by rw [hcells', hclen], ?_⟩
    · unfold Tensor.Valid
      simp [hcells, hclen, hnext', hn]
    · intro i hi
      rw [hcells']
      exact hdone i hi

/-- Inside the loops, an operand is read from a heap that differs from the initial
one at most in the freshly allocated block: the read returns the operand's cell. -/
theorem Tensor.Valid.load_fresh {h hp : Heap F} {t : Tensor} (hv : t.Valid h) {i : Nat}
    (hi : i < t.size_) (hagree : ∀ p, p ≠ h.next + 1 → hp.mem p = h.mem p) :
    ∃ c, (t.cells h)[i]? = some c ∧ hp.load t.data_ i = .ok c.val := by
  obtain ⟨c, hc, hl⟩ := hv.load_cell hi
  exact ⟨c, hc, by rw [Heap.load_congr h hp t.data_ i (hagree _ hv.ne_fresh), hl]⟩

theorem Tensor_size_data (h : Heap F) (n : Nat) (hn : 0 < n) :
    (Tensor.Tensor_size h n).1.data_ = h.next + 1 := by
  rw [Tensor_size_pos h n hn]

theorem Tensor_size_size (h : Heap F) (n : Nat) : (Tensor.Tensor_size h n).1.size_ = n := by
  unfold Tensor.Tensor_size
  split <;> rfl

theorem Tensor_size_owns (h : Heap F) (n : Nat) :
    (Tensor.Tensor_size h n).1.owns_memory_ = true := by
  unfold Tensor.Tensor_size
  split <;> rfl

/-- What `operator+` does on valid operands of equal length. -/
theorem operator_plus_ok [Add F] (h : Heap F) (a b : Tensor) (ha : a.Valid h) (hb : b.Valid h)
    (hlen : a.size_ = b.size_) :
    ∃ h', Tensor.operator_plus h a b = .ok ((Tensor.Tensor_size h a.size_).1, h') ∧
      (Tensor.Tensor_size h a.size_).1.Valid h' ∧
      (∀ p, p ≠ h.next + 1 → h'.mem p = h.mem p) ∧
      h.next ≤ h'.next ∧ h'.garbage = h.garbage ∧
      ((Tensor.Tensor_size h a.size_).1.cells h').length = a.size_ ∧
      ∀ i, i < a.size_ →
        ∃ v, ((Tensor.Tensor_size h a.size_).1.cells h')[i]? = some (Cell.mk v true) ∧
          ∃ ca cb, (a.cells h)[i]? = some ca ∧ (b.cells h)[i]? = some cb ∧
            v = ca.val + cb.val := by
  obtain ⟨h', hrun, hrest⟩ := fresh_loop_ok h a.size_
    (fun i v => ∃ ca cb, (a.cells h)[i]? = some ca ∧ (b.cells h)[i]? = some cb ∧
      v = ca.val + cb.val)
    (fun i hp =>
        match hp.load a.data_ i with
        | .ok x =>
          match hp.load b.data_ i with
          | .ok y => hp.store (Tensor.Tensor_size h a.size_).1.data_ i (x + y)
          | .error e => .error e
        | .error e => .error e)
    (by
      intro i hp hi hagree
      obtain ⟨ca, hca, hla⟩ := ha.load_fresh hi hagree
      obtain ⟨cb, hcb, hlb⟩ := hb.load_fresh (hlen ▸ hi) hagree
      refine ⟨ca.val + cb.val, ?_, ca, cb, hca, hcb, rfl⟩
      simp only [hla, hlb, Tensor_size_data h a.size_ (by omega)])
  refine ⟨h', ?_, hrest⟩
  unfold Tensor.operator_plus
  rw [if_neg (by simpa using hlen)]
  simp only [hrun]

/-- What `operator-` does on valid operands of equal length. -/
theorem operator_minus_ok [Sub F] (h : Heap F) (a b : Tensor) (ha : a.Valid h)
    (hb : b.Valid h) (hlen : a.size_ = b.size_) :
    ∃ h', Tensor.operator_minus h a b = .ok ((Tensor.Tensor_size h a.size_).1, h') ∧
      (Tensor.Tensor_size h a.size_).1.Valid h' ∧
      (∀ p, p ≠ h.next + 1 → h'.mem p = h.mem p) ∧
      h.next ≤ h'.next ∧ h'.garbage = h.garbage ∧
      ((Tensor.Tensor_size h a.size_).1.cells h').length = a.size_ ∧
      ∀ i, i < a.size_ →
        ∃ v, ((Tensor.Tensor_size h a.size_).1.cells h')[i]? = some (Cell.mk v true) ∧
          ∃ ca cb, (a.cells h)[i]? = some ca ∧ (b.cells h)[i]? = some cb ∧
            v = ca.val - cb.val := by
  obtain ⟨h', hrun, hrest⟩ := fresh_loop_ok h a.size_
    (fun i v => ∃ ca cb, (a.cells h)[i]? = some ca ∧ (b.cells h)[i]? = some cb ∧
      v = ca.val - cb.val)
    (fun i hp =>
        match hp.load a.data_ i with
        | .ok x =>
          match hp.load b.data_ i with
          | .ok y => hp.store (Tensor.Tensor_size h a.size_).1.data_ i (x - y)
          | .error e => .error e
        | .error e => .error e)
    (by
      intro i hp hi hagree
      obtain ⟨ca, hca, hla⟩ := ha.load_fresh hi hagree
      obtain ⟨cb, hcb, hlb⟩ := hb.load_fresh (hlen ▸ hi) hagree
      refine ⟨ca.val - cb.val, ?_, ca, cb, hca, hcb, rfl⟩
      simp only [hla, hlb, Tensor_size_data h a.size_ (by omega)])
  refine ⟨h', ?_, hrest⟩
  unfold Tensor.operator_minus
  rw [if_neg (by simpa using hlen)]
  simp only [hrun]

/-- What `operator*` does on a valid operand. -/
theorem operator_mul_ok [Mul F] (h : Heap F) (a : Tensor) (s : F) (ha : a.Valid h) :
    ∃ h', Tensor.operator_mul h a s = .ok ((Tensor.Tensor_size h a.size_).1, h') ∧
      (Tensor.Tensor_size h a.size_).1.Valid h' ∧
      (∀ p, p ≠ h.next + 1 → h'.mem p = h.mem p) ∧
      h.next ≤ h'.next ∧ h'.garbage = h.garbage ∧
      ((Tensor.Tensor_size h a.size_).1.cells h').length = a.size_ ∧
      ∀ i, i < a.size_ →
        ∃ v, ((Tensor.Tensor_size h a.size_).1.cells h')[i]? = some (Cell.mk v true) ∧
          ∃ ca, (a.cells h)[i]? = some ca ∧ v = ca.val * s := by
  obtain ⟨h', hrun, hrest⟩ := fresh_loop_ok h a.size_
    (fun i v => ∃ ca, (a.cells h)[i]? = some ca ∧ v = ca.val * s)
    (fun i hp =>
        match hp.load a.data_ i with
        | .ok x => hp.store (Tensor.Tensor_size h a.size_).1.data_ i (x * s)
        | .error e => .error e)
    (by
      intro i hp hi hagree
      obtain ⟨ca, hca, hla⟩ := ha.load_fresh hi hagree
      refine ⟨ca.val * s, ?_, ca, hca, rfl⟩
      simp only [hla, Tensor_size_data h a.size_ (by omega)])
  refine ⟨h', ?_, hrest⟩
  unfold Tensor.operator_mul
  simp only [hrun]

/-- A valid tensor read at an index below its length gives the value of that cell,
and conversely a cell value is what the read returns. -/
theorem Tensor.Valid.get_of_cell {h : Heap F} {t : Tensor} (hv : t.Valid h) {i : Nat}
    {c : Cell F} (hi : i < t.size_) (hc : (t.cells h)[i]? = some c) :
    Tensor.get h t i = .ok c.val := by
  obtain ⟨c', hc', hg⟩ := hv.get_ok hi
  rw [hc] at hc'
  cases hc'
  exact hg

/-- A block whose cell `i` holds `f x y`, for `x` and `y` the cells `i` of two blocks of
the same length, reads back as the pointwise combination of the two. -/
theorem cells_zipWith (f : F → F → F) (cr ca cb : List (Cell F)) (n : Nat)
    (hr : cr.length = n) (ha : ca.length = n) (hb : cb.length = n)
    (hcell : ∀ i, i < n → ∃ v, cr[i]? = some (Cell.mk v true) ∧
      ∃ x y, ca[i]? = some x ∧ cb[i]? = some y ∧ v = f x.val y.val) :
    cr.map Cell.val = List.zipWith f (ca.map Cell.val) (cb.map Cell.val) := by
  apply List.ext_getElem?
  intro i
  rw [List.getElem?_zipWith]
  by_cases hi : i < n
  · obtain ⟨v, hv, x, y, hx, hy, hf⟩ := hcell i hi
    simp [hv, hx, hy, hf]
  · have h1 : cr[i]? = none := List.getElem?_eq_none (by omega)
    have h2 : ca[i]? = none := List.getElem?_eq_none (by omega)
    simp [h1, h2]

/-- A block whose cell `i` holds `g x`, for `x` the cell `i` of another block of the
same length, reads back as the image of that block. -/
theorem cells_map (g : F → F) (cr ca : List (Cell F)) (n : Nat)
    (hr : cr.length = n) (ha : ca.length = n)
    (hcell : ∀ i, i < n → ∃ v, cr[i]? = some (Cell.mk v true) ∧
      ∃ x, ca[i]? = some x ∧ v = g x.val) :
    cr.map Cell.val = (ca.map Cell.val).map g := by
  apply List.ext_getElem?
  intro i
  by_cases hi : i < n
  · obtain ⟨v, hv, x, hx, hf⟩ := hcell i hi
    simp [hv, hx, hf]
  · have h1 : cr[i]? = none := List.getElem?_eq_none (by omega)
    have h2 : ca[i]? = none := List.getElem?_eq_none (by omega)
    simp [h1, h2]

/-- What the constructor from a vector does: it succeeds, and the new tensor is valid,
holds the values in order, all written, in a block that did not exist before. -/
theorem Tensor_vector_ok (h : Heap F) (values : List F) :
    ∃ t h', Tensor.Tensor_vector h values = .ok (t, h') ∧ t.size_ = values.length ∧
      t.owns_memory_ = true ∧ t.Valid h' ∧
      (∀ p, p ≠ h.next + 1 → h'.mem p = h.mem p) ∧ h.next ≤ h'.next ∧
      h'.garbage = h.garbage ∧ t.cells h' = values.map (fun v => Cell.mk v true) ∧
      (t.data_ = nullptr ∨ t.data_ = h.next + 1) := by
  rcases Nat.eq_zero_or_pos values.length with hn | hn
  · have hnil : values = [] := List.length_eq_zero.mp hn
    subst hnil
    exact ⟨{ data_ := nullptr, size_ := 0, owns_memory_ := true }, h,
      by simp [Tensor.Tensor_vector], rfl, rfl, by simp [Tensor.Valid],
      fun _ _ => rfl, le_refl _, rfl, by simp [Tensor.cells], Or.inl rfl⟩
  · have hfresh : (h.new_array values.length).2.mem (h.next + 1) =
        some ((List.range values.length).map fun i =>
          Cell.mk (h.garbage (h.next + 1) i) false) := by
      simp [Heap.new_array]
    have hold : ∀ p, p ≠ h.next + 1 → (h.new_array values.length).2.mem p = h.mem p := by
      intro p hp
      simp [Heap.new_array, Function.update_noteq hp]
    obtain ⟨h', cells', hrun, hnext, hgarb, hframe, hblock, hlen', hget⟩ :=
      std_copy_ok (h.next + 1) values 0 (h.new_array values.length).2 _ hfresh (by simp)
    have hcells : cells' = values.map (fun v => Cell.mk v true) := by
      apply List.ext_getElem?
      intro m
      rw [hget m]
      by_cases hm : m < values.length
      · have hyes : 0 ≤ m ∧ m < 0 + values.length := by omega
        rw [if_pos hyes]
        simp
      · have hno : ¬ (0 ≤ m ∧ m < 0 + values.length) := by omega
        rw [if_neg hno]
        simp only [List.getElem?_map]
        rw [List.getElem?_eq_none (by simp; omega), List.getElem?_eq_none (by omega)]
        rfl
    have hnext' : h'.next = h.next + 1 := by rw [hnext]; rfl
    refine ⟨{ data_ := h.next + 1, size_ := values.length, owns_memory_ := true }, h', ?_,
      rfl, rfl, ?_, fun p hp => by rw [hframe p hp, hold p hp], by omega,
      by rw [hgarb]; rfl, ?_, Or.inr rfl⟩
    · have hrun' : std_copy values (h.new_array values.length).1 0
          (h.new_array values.length).2 = .ok h' := hrun
      simp [Tensor.Tensor_vector, hn, hrun']
      rfl
    · unfold Tensor.Valid
      simp [hblock, hcells, hnext', hn]
    · simp [Tensor.cells, hblock, hcells]

/-- What the copy constructor does on a valid tensor: it succeeds, and the new tensor
is valid and holds the same cells in a block that did not exist before. -/
theorem Tensor_copy_ok (h : Heap F) (a : Tensor) (ha : a.Valid h) :
    ∃ b h', Tensor.Tensor_copy h a = .ok (b, h') ∧ b.size_ = a.size_ ∧
      b.owns_memory_ = true ∧ b.Valid h' ∧
      (∀ p, p ≠ h.next + 1 → h'.mem p = h.mem p) ∧ h.next ≤ h'.next ∧
      h'.garbage = h.garbage ∧ b.cells h' = a.cells h ∧
      (b.data_ = nullptr ∨ b.data_ = h.next + 1) := by
  rcases Nat.eq_zero_or_pos a.size_ with hn | hn
  · have hcells : a.cells h = [] := List.length_eq_zero.mp (by rw [ha.cells_length, hn])
    exact ⟨{ data_ := nullptr, size_ := a.size_, owns_memory_ := true }, h,
      by simp [Tensor.Tensor_copy, hn], rfl, rfl, by simp [Tensor.Valid, hn],
      fun _ _ => rfl, le_refl _, rfl, by rw [hcells]; simp [Tensor.cells], Or.inl rfl⟩
  · have hne := ha.data_ne_null hn
    have hfresh : (h.new_array a.size_).2.mem (h.next + 1) =
        some ((List.range a.size_).map fun i => Cell.mk (h.garbage (h.next + 1) i) false) := by
      simp [Heap.new_array]
    have hold : ∀ p, p ≠ h.next + 1 → (h.new_array a.size_).2.mem p = h.mem p := by
      intro p hp
      simp [Heap.new_array, Function.update_noteq hp]
    have hsrc : (h.new_array a.size_).2.mem a.data_ = some (a.cells h) := by
      rw [hold _ ha.ne_fresh, ha.mem_eq hne]
    have hlen := ha.cells_length
    have hrun : (h.new_array a.size_).2.memcpy (h.next + 1) a.data_ a.size_ =
        .ok { (h.new_array a.size_).2 with
              mem := Function.update (h.new_array a.size_).2.mem (h.next + 1)
                (some (a.cells h)) } := by
      have htake : (a.cells h).take a.size_ = a.cells h :=
        List.take_of_length_le (by omega)
      have hdrop : ((List.range a.size_).map fun i =>
          Cell.mk (h.garbage (h.next + 1) i) false).drop a.size_ = [] :=
        List.drop_of_length_le (by simp)
      unfold Heap.memcpy
      rw [hfresh, hsrc]
      simp only [hlen, List.length_map, List.length_range, le_refl, and_self, if_true, htake,
        hdrop, List.append_nil]
    refine ⟨{ data_ := h.next + 1, size_ := a.size_, owns_memory_ := true },
      { (h.new_array a.size_).2 with
        mem := Function.update (h.new_array a.size_).2.mem (h.next + 1) (some (a.cells h)) },
      ?_, rfl, rfl, ?_, ?_, ?_, rfl, ?_, Or.inr rfl⟩
    · have hp1 : (h.new_array a.size_).1 = h.next + 1 := rfl
      simp only [Tensor.Tensor_copy, hn, if_true, hp1, hrun]
    · unfold Tensor.Valid
      simp [hlen, hn, Heap.new_array]
    · intro p hp
      simp [Function.update_noteq hp, hold p hp]
    · simp [Heap.new_array]
    · simp [Tensor.cells]

/-- What `fill` does on a valid tensor: it succeeds, writes the value into every cell
of the tensor and changes nothing else. -/
theorem fill_ok (h : Heap F) (t : Tensor) (v : F) (ht : t.Valid h) :
    ∃ h', Tensor.fill h t v = .ok h' ∧ h'.next = h.next ∧ h'.garbage = h.garbage ∧
      (∀ p, p ≠ t.data_ → h'.mem p = h.mem p) ∧ t.Valid h' ∧
      t.cells h' = List.replicate t.size_ (Cell.mk v true) ∧ (t.size_ = 0 → h' = h) := by
  rcases Nat.eq_zero_or_pos t.size_ with hn | hn
  · have hcells : t.cells h = [] := List.length_eq_zero.mp (by rw [ht.cells_length, hn])
    refine ⟨h, by simp [Tensor.fill, std_fill, hn, forLoop], rfl, rfl, fun _ _ => rfl, ht,
      by rw [hcells, hn]; rfl, fun _ => rfl⟩
  · have hne := ht.data_ne_null hn
    obtain ⟨h', cells, hrun, hnext, hgarb, hframe, hcells, hclen, hdone⟩ :=
      forLoop_store h t.data_ t.size_ (t.cells h) (ht.mem_eq hne) ht.cells_length
        (fun _ w => w = v) (fun i hp => hp.store t.data_ i v)
        (fun i hp _ _ => ⟨v, rfl, rfl⟩)
    have hc : t.cells h' = cells := by simp [Tensor.cells, hne, hcells]
    refine ⟨h', hrun, hnext, hgarb, hframe, ?_, ?_, fun h0 => by omega⟩
    · unfold Tensor.Valid
      rw [if_neg hne, hcells]
      exact ⟨hn, by rw [hnext]; exact (ht.live hne).2.1, by simp [hclen]⟩
    · rw [hc]
      apply List.ext_getElem?
      intro i
      by_cases hi : i < t.size_
      · obtain ⟨w, hw, hwv⟩ := hdone i hi
        rw [hw, hwv, List.getElem?_replicate, if_pos hi]
      · rw [List.getElem?_eq_none (by omega), List.getElem?_eq_none (by simp; omega)]

/-- What an indexed write does on a valid tensor, inside its bounds: it succeeds,
replaces cell `i` and changes nothing else. -/
theorem set_ok (h : Heap F) (t : Tensor) (i : Nat) (v : F) (ht : t.Valid h)
    (hi : i < t.size_) :
    ∃ h', Tensor.set h t i v = .ok h' ∧ h'.next = h.next ∧ h'.garbage = h.garbage ∧
      (∀ p, p ≠ t.data_ → h'.mem p = h.mem p) ∧ t.Valid h' ∧
      t.cells h' = (t.cells h).set i (Cell.mk v true) := by
  have hne := ht.data_ne_null (by omega)
  have hlen := ht.cells_length
  have hno : ¬ i ≥ t.size_ := by omega
  refine ⟨{ h with
      mem := Function.update h.mem t.data_ (some ((t.cells h).set i (Cell.mk v true))) },
    ?_, rfl, rfl, ?_, ?_, ?_⟩
  · simp only [Tensor.set, Tensor.operator_index, hno, if_false]
    exact Heap.store_ok h t.data_ i v (t.cells h) (ht.mem_eq hne) (by omega)
  · intro p hp
    simp [Function.update_noteq hp]
  · unfold Tensor.Valid
    rw [if_neg hne]
    exact ⟨by omega, (ht.live hne).2.1, by simp [hlen]⟩
  · simp [Tensor.cells, hne]

/-- Releasing the buffer of a valid tensor (the destructor, and the first step of both
assignments) succeeds and touches no other block. -/
theorem destroy_ok (h : Heap F) (t : Tensor) (ht : t.Valid h) :
    ∃ h1, Tensor.destroy h t = .ok h1 ∧ h1.next = h.next ∧ h1.garbage = h.garbage ∧
      (∀ p, p ≠ t.data_ → h1.mem p = h.mem p) ∧ (t.data_ = nullptr → h1 = h) := by
  by_cases hn : t.data_ = nullptr
  · exact ⟨h, by simp [Tensor.destroy, hn], rfl, rfl, fun _ _ => rfl, fun _ => rfl⟩
  · by_cases ho : t.owns_memory_ = true
    · refine ⟨{ h with mem := Function.update h.mem t.data_ none }, ?_, rfl, rfl, ?_,
        fun h0 => absurd h0 hn⟩
      · simp [Tensor.destroy, ho, hn, Heap.delete_array, ht.mem_eq hn]
      · intro p hp
        simp [Function.update_noteq hp]
    · exact ⟨h, by simp [Tensor.destroy, ho], rfl, rfl, fun _ _ => rfl, fun _ => rfl⟩

/-- Copy assignment between distinct objects is the release of the target followed by
the body of the copy constructor. -/
theorem operator_assign_copy_eq (s : State F) (this other : Nat) (hne : this ≠ other) :
    Tensor.operator_assign_copy s this other =
      match Tensor.destroy s.heap (s.objs this) with
      | .error e => .error e
      | .ok h1 =>
        match Tensor.Tensor_copy h1 (s.objs other) with
        | .ok r => .ok { objs := Function.update s.objs this r.1, heap := r.2 }
        | .error e => .error e := by
  unfold Tensor.operator_assign_copy Tensor.destroy
  rw [if_pos hne]
  split
  · rfl
  · unfold Tensor.Tensor_copy
    split
    · split <;> rfl
    · rfl

/-- What copy assignment does between two distinct valid objects with distinct
buffers. -/
theorem operator_assign_copy_ok (s : State F) (this other : Nat) (hne : this ≠ other)
    (hthis : (s.objs this).Valid s.heap) (hother : (s.objs other).Valid s.heap)
    (hdisj : (s.objs this).data_ ≠ nullptr → (s.objs this).data_ ≠ (s.objs other).data_) :
    ∃ s', Tensor.operator_assign_copy s this other = .ok s' ∧
      (∀ x, x ≠ this → s'.objs x = s.objs x) ∧
      (s'.objs this).size_ = (s.objs other).size_ ∧
      (s'.objs this).owns_memory_ = true ∧
      (s'.objs this).Valid s'.heap ∧ (s.objs other).Valid s'.heap ∧
      s'.heap.mem (s.objs other).data_ = s.heap.mem (s.objs other).data_ ∧
      (∀ p, p ≠ s.heap.next + 1 → p ≠ (s.objs this).data_ → s'.heap.mem p = s.heap.mem p) ∧
      (s'.objs this).cells s'.heap = (s.objs other).cells s.heap ∧
      ((s'.objs this).data_ = nullptr ∨ (s'.objs this).data_ = s.heap.next + 1) := by
  obtain ⟨h1, hdel, hnext1, hgarb1, hframe1, hnull1⟩ := destroy_ok s.heap (s.objs this) hthis
  have hkeep : h1.mem (s.objs other).data_ = s.heap.mem (s.objs other).data_ := by
    by_cases hn : (s.objs this).data_ = nullptr
    · rw [hnull1 hn]
    · exact hframe1 _ (Ne.symm (hdisj hn))
  have hother1 : (s.objs other).Valid h1 := hother.frame hkeep (by omega)
  obtain ⟨b, h3, hcopy, hsize, howns, hbvalid, hframe3, hnext3, hgarb3, hcells, hdata⟩ :=
    Tensor_copy_ok h1 (s.objs other) hother1
  have hkeep3 : h3.mem (s.objs other).data_ = s.heap.mem (s.objs other).data_ := by
    rw [hframe3 _ hother1.ne_fresh, hkeep]
  refine ⟨{ objs := Function.update s.objs this b, heap := h3 }, ?_, ?_, ?_, ?_, ?_, ?_,
    hkeep3, ?_, ?_, ?_⟩
  · rw [operator_assign_copy_eq s this other hne, hdel]
    simp only [hcopy]
  · intro x hx
    simp [Function.update_noteq hx]
  · simpa using hsize
  · simpa using howns
  · simpa using hbvalid
  · exact hother.frame hkeep3 (by simp only; omega)
  · intro p hp1 hp2
    show h3.mem p = s.heap.mem p
    rw [hframe3 p (by rw [hnext1]; exact hp1), hframe1 p hp2]
  · simp only [Function.update_same]
    rw [hcells]
    exact Tensor.cells_congr hkeep
  · simp only [Function.update_same]
    rw [← hnext1]
    exact hdata

/-- What move assignment does between two distinct objects with distinct buffers. -/
theorem operator_assign_move_ok (s : State F) (this other : Nat) (hne : this ≠ other)
    (hthis : (s.objs this).Valid s.heap)
    (hdisj : (s.objs this).data_ ≠ nullptr → (s.objs this).data_ ≠ (s.objs other).data_) :
    ∃ s', Tensor.operator_assign_move s this other = .ok s' ∧
      (∀ x, x ≠ this → x ≠ other → s'.objs x = s.objs x) ∧
      s'.objs this = s.objs other ∧
      s'.objs other = { data_ := nullptr, size_ := 0, owns_memory_ := false } ∧
      s'.heap.mem (s.objs other).data_ = s.heap.mem (s.objs other).data_ ∧
      s'.heap.next = s.heap.next ∧
      (∀ p, p ≠ (s.objs this).data_ → s'.heap.mem p = s.heap.mem p) := by
  obtain ⟨h1, hdel, hnext1, hgarb1, hframe1, hnull1⟩ := destroy_ok s.heap (s.objs this) hthis
  have hkeep : h1.mem (s.objs other).data_ = s.heap.mem (s.objs other).data_ := by
    by_cases hn : (s.objs this).data_ = nullptr
    · rw [hnull1 hn]
    · exact hframe1 _ (Ne.symm (hdisj hn))
  have hdel' : (if (s.objs this).owns_memory_ && (s.objs this).data_ != nullptr
      then s.heap.delete_array (s.objs this).data_ else Except.ok s.heap) = .ok h1 := hdel
  refine ⟨{ objs := Function.update
              (Function.update s.objs this
                { data_ := (s.objs other).data_, size_ := (s.objs other).size_,
                  owns_memory_ := (s.objs other).owns_memory_ })
              other { data_ := nullptr, size_ := 0, owns_memory_ := false }
            heap := h1 },
    by simp only [Tensor.operator_assign_move, if_pos hne, hdel'], ?_, ?_, ?_, hkeep,
    hnext1, hframe1⟩
  · intro x hx1 hx2
    simp [Function.update_noteq hx1, Function.update_noteq hx2]
  · simp [Function.update_noteq hne]
  · simp

/-- What `fill` does on a tensor just made by `Tensor(n)` (the body of `zeros` and
`ones`). -/
theorem fresh_fill_ok (h : Heap F) (n : Nat) (v : F) :
    ∃ h', Tensor.fill (Tensor.Tensor_size h n).2 (Tensor.Tensor_size h n).1 v = .ok h' ∧
      (Tensor.Tensor_size h n).1.Valid h' ∧
      (∀ p, p ≠ h.next + 1 → h'.mem p = h.mem p) ∧
      h.next ≤ h'.next ∧ h'.garbage = h.garbage ∧
      (Tensor.Tensor_size h n).1.cells h' = List.replicate n (Cell.mk v true) := by
  obtain ⟨h', hrun, hvalid, hframe, hnext, hgarb, hlen, hcell⟩ := fresh_loop_ok h n
    (fun _ w => w = v) (fun i hp => hp.store (Tensor.Tensor_size h n).1.data_ i v)
    (fun i hp hi _ => ⟨v, by rw [Tensor_size_data h n (by omega)], rfl⟩)
  refine ⟨h', ?_, hvalid, hframe, hnext, hgarb, ?_⟩
  · unfold Tensor.fill std_fill
    rw [Tensor_size_size]
    exact hrun
  · apply List.ext_getElem?
    intro i
    by_cases hi : i < n
    · obtain ⟨w, hw, hwv⟩ := hcell i hi
      rw [hw, hwv, List.getElem?_replicate, if_pos hi]
    · rw [List.getElem?_eq_none (by omega), List.getElem?_eq_none (by simp; omega)]

/-- Reading element `i` of a valid tensor whose cells are known. -/
theorem Tensor.Valid.get_eq {h : Heap F} {t : Tensor} (hv : t.Valid h) (i : Nat) :
    Tensor.get h t i =
      if i < t.size_ then
        match (t.cells h)[i]? with
        | some c => .ok c.val
        | none => .error .memory_fault
      else .error .out_of_range := by
  by_cases hi : i < t.size_
  · obtain ⟨c, hc, hg⟩ := hv.get_ok hi
    rw [if_pos hi, hc, hg]
  · have hge : i ≥ t.size_ := by omega
    simp [Tensor.get, Tensor.operator_index_const, hge, hi]

/-- Two valid tensors with distinct buffers: writes through one leave the other as
it is. -/
theorem writes_preserve_of_disjoint (h : Heap F) (x y : Tensor) (i : Nat) (v : F)
    (hx : x.Valid h) (hd : x.data_ ≠ nullptr → x.data_ ≠ y.data_) :
    Tensor.writes_preserve h x y i v := by
  refine ⟨?_, ?_, ?_⟩
  · intro hi
    obtain ⟨h2, hset, _, _, _, hvalid, hcells⟩ := set_ok h x i v hx hi
    refine ⟨h2, hset, ?_⟩
    have hlen := hx.cells_length
    have hc : (x.cells h2)[i]? = some (Cell.mk v true) := by
      rw [hcells]
      simp [hlen, hi]
    exact hvalid.get_of_cell hi hc
  · intro h2 hset
    by_cases hi : i < x.size_
    · obtain ⟨h3, hset3, _, _, hframe, _, _⟩ := set_ok h x i v hx hi
      have heq : h3 = h2 := Except.ok.inj (hset3.symm.trans hset)
      subst heq
      have hkeep : h3.mem y.data_ = h.mem y.data_ :=
        hframe _ (Ne.symm (hd (hx.data_ne_null (by omega))))
      exact ⟨fun j => Tensor.get_congr hkeep j, Tensor.to_vector_congr hkeep⟩
    · have hge : i ≥ x.size_ := by omega
      simp [Tensor.set, Tensor.operator_index, hge] at hset
  · obtain ⟨h2, hfill, _, _, hframe, _, _, hzero⟩ := fill_ok h x v hx
    refine ⟨h2, hfill, ?_⟩
    have hkeep : h2.mem y.data_ = h.mem y.data_ := by
      rcases Nat.eq_zero_or_pos x.size_ with h0 | hpos
      · rw [hzero h0]
      · exact hframe _ (Ne.symm (hd (hx.data_ne_null hpos)))
    exact ⟨fun j => Tensor.get_congr hkeep j, Tensor.to_vector_congr hkeep⟩

/-- A tensor stored by an earlier allocation is not where a later one lands. -/
theorem Tensor.Valid.ne_of_fresh {h : Heap F} {t u : Tensor} (ht : t.Valid h)
    (hu : u.data_ = nullptr ∨ u.data_ = h.next + 1) :
    (t.data_ ≠ nullptr → t.data_ ≠ u.data_) ∧ (u.data_ ≠ nullptr → u.data_ ≠ t.data_) := by
  constructor
  · intro hn heq
    rcases hu with hu | hu
    · exact hn (heq.trans hu)
    · exact ht.ne_fresh (heq.trans hu)
  · intro hn heq
    rcases hu with hu | hu
    · exact hn hu
    · exact ht.ne_fresh (heq.symm.trans hu)

/-! ## The claims -/

/-- C1: for tensors `a` and `b` of the same length, `operator+` and `operator-`
succeed and return a tensor of that length whose element at every index
`i < length` is `a[i] + b[i]`, respectively `a[i] - b[i]`; read back as vectors,
the results are the pointwise sum and difference of the operands (so
`[1,2,3] + [4,5,6]` is `[1+4, 2+5, 3+6]` and `[4,5,6] - [1,2,3]` is
`[4-1, 5-2, 6-3]`). -/
theorem C1_add_subtract_elementwise [Add F] [Sub F] (h : Heap F) (a b : Tensor)
    (ha : a.Valid h) (hb : b.Valid h) (hlen : a.size_ = b.size_) :
    (∃ r h', Tensor.operator_plus h a b = .ok (r, h') ∧ r.size_ = a.size_ ∧
      (∀ i, i < a.size_ → ∃ x y, Tensor.get h a i = .ok x ∧ Tensor.get h b i = .ok y ∧
        Tensor.get h' r i = .ok (x + y)) ∧
      ∃ xs ys, Tensor.to_vector h a = .ok xs ∧ Tensor.to_vector h b = .ok ys ∧
        Tensor.to_vector h' r = .ok (List.zipWith (fun x y => x + y) xs ys)) ∧
    (∃ r h', Tensor.operator_minus h a b = .ok (r, h') ∧ r.size_ = a.size_ ∧
      (∀ i, i < a.size_ → ∃ x y, Tensor.get h a i = .ok x ∧ Tensor.get h b i = .ok y ∧
        Tensor.get h' r i = .ok (x - y)) ∧
      ∃ xs ys, Tensor.to_vector h a = .ok xs ∧ Tensor.to_vector h b = .ok ys ∧
        Tensor.to_vector h' r = .ok (List.zipWith (fun x y => x - y) xs ys)) := by
  constructor
  · obtain ⟨h', hrun, hvalid, _, _, _, hrlen, hcell⟩ := operator_plus_ok h a b ha hb hlen
    refine ⟨_, h', hrun, Tensor_size_size h a.size_, ?_, _, _, ha.to_vector_ok,
      hb.to_vector_ok, ?_⟩
    · intro i hi
      obtain ⟨v, hv, ca, cb, hca, hcb, hval⟩ := hcell i hi
      refine ⟨ca.val, cb.val, ha.get_of_cell hi hca, hb.get_of_cell (hlen ▸ hi) hcb, ?_⟩
      rw [hvalid.get_of_cell (by rw [Tensor_size_size]; exact hi) hv, hval]
    · rw [hvalid.to_vector_ok]
      exact congrArg Except.ok (cells_zipWith _ _ _ _ a.size_ hrlen ha.cells_length
        (hlen ▸ hb.cells_length) hcell)
  · obtain ⟨h', hrun, hvalid, _, _, _, hrlen, hcell⟩ := operator_minus_ok h a b ha hb hlen
    refine ⟨_, h', hrun, Tensor_size_size h a.size_, ?_, _, _, ha.to_vector_ok,
      hb.to_vector_ok, ?_⟩
    · intro i hi
      obtain ⟨v, hv, ca, cb, hca, hcb, hval⟩ := hcell i hi
      refine ⟨ca.val, cb.val, ha.get_of_cell hi hca, hb.get_of_cell (hlen ▸ hi) hcb, ?_⟩
      rw [hvalid.get_of_cell (by rw [Tensor_size_size]; exact hi) hv, hval]
    · rw [hvalid.to_vector_ok]
      exact congrArg Except.ok (cells_zipWith _ _ _ _ a.size_ hrlen ha.cells_length
        (hlen ▸ hb.cells_length) hcell)

/-- C1 at the operands of the test: `[1,2,3] + [4,5,6]` is `[5,7,9]` and
`[4,5,6] - [1,2,3]` is `[3,3,3]`. -/
theorem C1_add_subtract_elementwise_witness :
    tensor_a.Valid test_heap ∧ tensor_b.Valid test_heap ∧ tensor_a.size_ = tensor_b.size_ ∧
    (∃ r h', Tensor.operator_plus test_heap tensor_a tensor_b = .ok (r, h') ∧
      Tensor.to_vector h' r = .ok [5, 7, 9]) ∧
    (∃ r h', Tensor.operator_minus test_heap tensor_b tensor_a = .ok (r, h') ∧
      Tensor.to_vector h' r = .ok [3, 3, 3]) := by
  refine ⟨by decide, by decide, rfl, ?_, ?_⟩
  · obtain ⟨⟨r, h', hrun, _, _, xs, ys, hxs, hys, hres⟩, _⟩ :=
      C1_add_subtract_elementwise test_heap tensor_a tensor_b (by decide) (by decide) rfl
    have hx : xs = [1, 2, 3] := by
      have h1 : Tensor.to_vector test_heap tensor_a = .ok [1, 2, 3] := rfl
      rw [h1] at hxs
      exact (Except.ok.inj hxs).symm
    have hy : ys = [4, 5, 6] := by
      have h1 : Tensor.to_vector test_heap tensor_b = .ok [4, 5, 6] := rfl
      rw [h1] at hys
      exact (Except.ok.inj hys).symm
    subst hx hy
    exact ⟨r, h', hrun, hres⟩
  · obtain ⟨_, ⟨r, h', hrun, _, _, xs, ys, hxs, hys, hres⟩⟩ :=
      C1_add_subtract_elementwise test_heap tensor_b tensor_a (by decide) (by decide) rfl
    have hx : xs = [4, 5, 6] := by
      have h1 : Tensor.to_vector test_heap tensor_b = .ok [4, 5, 6] := rfl
      rw [h1] at hxs
      exact (Except.ok.inj hxs).symm
    have hy : ys = [1, 2, 3] := by
      have h1 : Tensor.to_vector test_heap tensor_a = .ok [1, 2, 3] := rfl
      rw [h1] at hys
      exact (Except.ok.inj hys).symm
    subst hx hy
    exact ⟨r, h', hrun, hres⟩

/-- C2: on tensors `a` and `b`, `operator+` and `operator-` fail with
`std::invalid_argument` exactly when the lengths differ (whatever the two
lengths, an empty operand included), and they fail in no other way. -/
theorem C2_shape_mismatch_iff [Add F] [Sub F] (h : Heap F) (a b : Tensor)
    (ha : a.Valid h) (hb : b.Valid h) :
    (Tensor.operator_plus h a b = .error .invalid_argument ↔ a.size_ ≠ b.size_) ∧
    (Tensor.operator_minus h a b = .error .invalid_argument ↔ a.size_ ≠ b.size_) ∧
    (∀ e, Tensor.operator_plus h a b = .error e → e = .invalid_argument) ∧
    (∀ e, Tensor.operator_minus h a b = .error e → e = .invalid_argument) := by
  by_cases hlen : a.size_ = b.size_
  · obtain ⟨h1, hplus, _⟩ := operator_plus_ok h a b ha hb hlen
    obtain ⟨h2, hminus, _⟩ := operator_minus_ok h a b ha hb hlen
    rw [hplus, hminus]
    refine ⟨⟨fun hc => (by cases hc), fun hc => absurd hlen hc⟩,
      ⟨fun hc => (by cases hc), fun hc => absurd hlen hc⟩,
      fun e hc => (by cases hc), fun e hc => (by cases hc)⟩
  · have hplus : Tensor.operator_plus h a b = .error .invalid_argument := by
      unfold Tensor.operator_plus
      rw [if_pos hlen]
    have hminus : Tensor.operator_minus h a b = .error .invalid_argument := by
      unfold Tensor.operator_minus
      rw [if_pos hlen]
    rw [hplus, hminus]
    refine ⟨⟨fun _ => hlen, fun _ => rfl⟩, ⟨fun _ => hlen, fun _ => rfl⟩, ?_, ?_⟩
    · intro e hc
      cases hc
      rfl
    · intro e hc
      cases hc
      rfl

/-- C2 at a tensor of length 3 and an empty tensor: both operators fail with
`std::invalid_argument`. -/
theorem C2_shape_mismatch_iff_witness :
    tensor_a.Valid test_heap ∧ Tensor.Tensor_default.Valid test_heap ∧
    Tensor.operator_plus test_heap tensor_a Tensor.Tensor_default = .error .invalid_argument ∧
    Tensor.operator_minus test_heap Tensor.Tensor_default tensor_a =
      .error .invalid_argument :=
  ⟨by decide, by decide,
    (C2_shape_mismatch_iff test_heap tensor_a Tensor.Tensor_default (by decide)
      (by decide)).1.mpr (by decide),
    (C2_shape_mismatch_iff test_heap Tensor.Tensor_default tensor_a (by decide)
      (by decide)).2.1.mpr (by decide)⟩

/-- C3: indexed access through either `operator[]`, for reading or writing, fails
with `std::out_of_range` exactly when `i >= length`; so every index fails on an
empty tensor. An index `i < length` is neither clamped nor wrapped: the
reference returned is `data_[i]`, a read returns the value of cell `i` and a
write replaces cell `i`. -/
theorem C3_index_out_of_range_iff (h : Heap F) (t : Tensor) (i : Nat) (v : F) :
    (t.operator_index i = .error .out_of_range ↔ i ≥ t.size_) ∧
    (t.operator_index_const i = .error .out_of_range ↔ i ≥ t.size_) ∧
    (Tensor.get h t i = .error .out_of_range ↔ i ≥ t.size_) ∧
    (Tensor.get_mut h t i = .error .out_of_range ↔ i ≥ t.size_) ∧
    (Tensor.set h t i v = .error .out_of_range ↔ i ≥ t.size_) ∧
    (t.size_ = 0 → Tensor.get h t i = .error .out_of_range ∧
      Tensor.set h t i v = .error .out_of_range) ∧
    (i < t.size_ → t.operator_index i = .ok (t.data_, i) ∧
      t.operator_index_const i = .ok (t.data_, i)) ∧
    (t.Valid h → i < t.size_ →
      ∃ c, (t.cells h)[i]? = some c ∧ Tensor.get h t i = .ok c.val ∧
        Tensor.get_mut h t i = .ok c.val ∧
        ∃ h', Tensor.set h t i v = .ok h' ∧
          t.cells h' = (t.cells h).set i (Cell.mk v true)) := by
  have hload : ∀ p, h.load p i ≠ .error .out_of_range := by
    intro p
    unfold Heap.load
    split
    · split
      · intro hc; cases hc
      · intro hc; cases hc
    · intro hc; cases hc
  have hstore : ∀ p, h.store p i v ≠ .error .out_of_range := by
    intro p
    unfold Heap.store
    split
    · split
      · intro hc; cases hc
      · intro hc; cases hc
    · intro hc; cases hc
  by_cases hi : i ≥ t.size_
  · have hlt : ¬ i < t.size_ := by omega
    have e1 : t.operator_index i = .error .out_of_range := by
      simp [Tensor.operator_index, hi]
    have e2 : t.operator_index_const i = .error .out_of_range := by
      simp [Tensor.operator_index_const, hi]
    have e3 : Tensor.get h t i = .error .out_of_range := by simp [Tensor.get, e2]
    have e4 : Tensor.get_mut h t i = .error .out_of_range := by simp [Tensor.get_mut, e1]
    have e5 : Tensor.set h t i v = .error .out_of_range := by simp [Tensor.set, e1]
    exact ⟨⟨fun _ => hi, fun _ => e1⟩, ⟨fun _ => hi, fun _ => e2⟩, ⟨fun _ => hi, fun _ => e3⟩,
      ⟨fun _ => hi, fun _ => e4⟩, ⟨fun _ => hi, fun _ => e5⟩, fun _ => ⟨e3, e5⟩,
      fun hc => absurd hc hlt, fun _ hc => absurd hc hlt⟩
  · have hlt : i < t.size_ := by omega
    have e1 : t.operator_index i = .ok (t.data_, i) := by simp [Tensor.operator_index, hi]
    have e2 : t.operator_index_const i = .ok (t.data_, i) := by
      simp [Tensor.operator_index_const, hi]
    have e3 : Tensor.get h t i = h.load t.data_ i := by simp [Tensor.get, e2]
    have e4 : Tensor.get_mut h t i = h.load t.data_ i := by simp [Tensor.get_mut, e1]
    have e5 : Tensor.set h t i v = h.store t.data_ i v := by simp [Tensor.set, e1]
    refine ⟨⟨fun hc => ?_, fun hc => absurd hc hi⟩, ⟨fun hc => ?_, fun hc => absurd hc hi⟩,
      ⟨fun hc => ?_, fun hc => absurd hc hi⟩, ⟨fun hc => ?_, fun hc => absurd hc hi⟩,
      ⟨fun hc => ?_, fun hc => absurd hc hi⟩, fun h0 => by omega, fun _ => ⟨e1, e2⟩, ?_⟩
    · rw [e1] at hc; cases hc
    · rw [e2] at hc; cases hc
    · rw [e3] at hc; exact absurd hc (hload _)
    · rw [e4] at hc; exact absurd hc (hload _)
    · rw [e5] at hc; exact absurd hc (hstore _)
    · intro hv _
      obtain ⟨c, hc, hg⟩ := hv.get_ok hlt
      obtain ⟨h', hset, _, _, _, _, hcells⟩ := set_ok h t i v hv hlt
      exact ⟨c, hc, hg, hg, h', hset, hcells⟩

/-- C3 at the tensor `[1, 2, 3]`: index 3 is out of range for reading and writing,
index 2 reads the last element, and every index is out of range on an empty
tensor. -/
theorem C3_index_out_of_range_iff_witness :
    tensor_a.Valid test_heap ∧
    Tensor.get test_heap tensor_a 3 = .error .out_of_range ∧
    Tensor.set test_heap tensor_a 3 7 = .error .out_of_range ∧
    Tensor.get test_heap Tensor.Tensor_default 0 = .error .out_of_range ∧
    (∃ c, (tensor_a.cells test_heap)[2]? = some c ∧
      Tensor.get test_heap tensor_a 2 = .ok c.val ∧
      Tensor.get_mut test_heap tensor_a 2 = .ok c.val ∧
      ∃ h', Tensor.set test_heap tensor_a 2 7 = .ok h' ∧
        tensor_a.cells h' = (tensor_a.cells test_heap).set 2 (Cell.mk 7 true)) :=
  ⟨by decide,
    (C3_index_out_of_range_iff test_heap tensor_a 3 7).2.2.1.mpr (by decide),
    (C3_index_out_of_range_iff test_heap tensor_a 3 7).2.2.2.2.1.mpr (by decide),
    ((C3_index_out_of_range_iff test_heap Tensor.Tensor_default 0 7).2.2.2.2.2.1 rfl).1,
    (C3_index_out_of_range_iff test_heap tensor_a 2 7).2.2.2.2.2.2.2 (by decide) (by decide)⟩

/-- C4: for every sequence `S` (the empty one included), the tensor constructed from
`S` has as many elements as `S` and converts back to exactly `S`, in order. -/
theorem C4_from_values_round_trip (h : Heap F) (S : List F) :
    ∃ t h', Tensor.Tensor_vector h S = .ok (t, h') ∧ Tensor.to_vector h' t = .ok S ∧
      t.size_ = S.length := by
  obtain ⟨t, h', hrun, hsize, _, hvalid, _, _, _, hcells, _⟩ := Tensor_vector_ok h S
  refine ⟨t, h', hrun, ?_, hsize⟩
  rw [hvalid.to_vector_ok, hcells]
  simp [Function.comp_def]

/-- C5: copying a tensor `a`, by the copy constructor or by copy assignment onto any
other tensor `b`, yields a tensor with the length of `a` and, at every index
below it, the element of `a`; `a` itself is unchanged; and the self-assignment
`a = a` changes nothing at all. -/
theorem C5_copy_is_deep (s : State F) (a b : Nat)
    (ha : (s.objs a).Valid s.heap) (hb : (s.objs b).Valid s.heap)
    (hdisj : a ≠ b → (s.objs b).data_ ≠ nullptr → (s.objs b).data_ ≠ (s.objs a).data_) :
    (∃ t h', Tensor.Tensor_copy s.heap (s.objs a) = .ok (t, h') ∧
      t.size_ = (s.objs a).size_ ∧
      (∀ i, i < (s.objs a).size_ →
        ∃ x, Tensor.get s.heap (s.objs a) i = .ok x ∧ Tensor.get h' t i = .ok x) ∧
      (∀ i, Tensor.get h' (s.objs a) i = Tensor.get s.heap (s.objs a) i) ∧
      Tensor.to_vector h' (s.objs a) = Tensor.to_vector s.heap (s.objs a)) ∧
    (∃ s', Tensor.operator_assign_copy s b a = .ok s' ∧
      (s'.objs b).size_ = (s.objs a).size_ ∧
      (∀ i, i < (s.objs a).size_ →
        ∃ x, Tensor.get s.heap (s.objs a) i = .ok x ∧
          Tensor.get s'.heap (s'.objs b) i = .ok x) ∧
      (a ≠ b → s'.objs a = s.objs a) ∧
      (∀ i, Tensor.get s'.heap (s.objs a) i = Tensor.get s.heap (s.objs a) i) ∧
      Tensor.to_vector s'.heap (s.objs a) = Tensor.to_vector s.heap (s.objs a)) ∧
    Tensor.operator_assign_copy s a a = .ok s := by
  have hself : ∀ x, Tensor.operator_assign_copy s x x = .ok s := by
    intro x
    simp [Tensor.operator_assign_copy]
  refine ⟨?_, ?_, hself a⟩
  · obtain ⟨t, h', hcopy, hsize, _, htvalid, hframe, _, _, hcells, _⟩ :=
      Tensor_copy_ok s.heap (s.objs a) ha
    have hkeep : h'.mem (s.objs a).data_ = s.heap.mem (s.objs a).data_ := hframe _ ha.ne_fresh
    refine ⟨t, h', hcopy, hsize, ?_, fun i => Tensor.get_congr hkeep i,
      Tensor.to_vector_congr hkeep⟩
    intro i hi
    obtain ⟨c, hc, hg⟩ := ha.get_ok hi
    exact ⟨c.val, hg, htvalid.get_of_cell (by omega) (by rw [hcells]; exact hc)⟩
  · by_cases hab : a = b
    · subst hab
      refine ⟨s, hself a, rfl, ?_, fun _ => rfl, fun _ => rfl, rfl⟩
      intro i hi
      obtain ⟨c, _, hg⟩ := ha.get_ok hi
      exact ⟨c.val, hg, hg⟩
    · obtain ⟨s', hrun, hobjs, hsize, _, hbvalid, _, hkeep, _, hcells, _⟩ :=
        operator_assign_copy_ok s b a (Ne.symm hab) hb ha (hdisj hab)
      refine ⟨s', hrun, hsize, ?_, fun _ => hobjs a hab, fun i => Tensor.get_congr hkeep i,
        Tensor.to_vector_congr hkeep⟩
      intro i hi
      obtain ⟨c, hc, hg⟩ := ha.get_ok hi
      exact ⟨c.val, hg, hbvalid.get_of_cell (by omega) (by rw [hcells]; exact hc)⟩

/-- C5 at the test state: assigning `tensor_a` to itself changes nothing, and
assigning it onto `tensor_b` makes object 1 read back as `[1, 2, 3]`. -/
theorem C5_copy_is_deep_witness :
    (test_state.objs 0).Valid test_state.heap ∧ (test_state.objs 1).Valid test_state.heap ∧
    Tensor.operator_assign_copy test_state 0 0 = .ok test_state ∧
    (∃ s', Tensor.operator_assign_copy test_state 1 0 = .ok s' ∧
      Tensor.to_vector s'.heap (s'.objs 1) = .ok [1, 2, 3]) :=
  ⟨by decide, by decide,
    (C5_copy_is_deep test_state 0 1 (by decide) (by decide) (by decide)).2.2,
    ⟨_, rfl, rfl⟩⟩

/-- C6: after `b = copy(a)`, by the copy constructor or by copy assignment onto
another tensor, the two tensors are independent: a later indexed write or
`fill` on `a` leaves every element of `b` as it was, and a later indexed write
or `fill` on `b` leaves every element of `a` as it was (the lengths are fields
that these writes do not reach). -/
theorem C6_copy_independence (s : State F) (a b : Nat) (i : Nat) (v : F) (hab : a ≠ b)
    (ha : (s.objs a).Valid s.heap) (hb : (s.objs b).Valid s.heap)
    (hdisj : (s.objs b).data_ ≠ nullptr → (s.objs b).data_ ≠ (s.objs a).data_) :
    (∃ t h1, Tensor.Tensor_copy s.heap (s.objs a) = .ok (t, h1) ∧
      Tensor.writes_preserve h1 (s.objs a) t i v ∧
      Tensor.writes_preserve h1 t (s.objs a) i v) ∧
    (∃ s1, Tensor.operator_assign_copy s b a = .ok s1 ∧
      Tensor.writes_preserve s1.heap (s1.objs a) (s1.objs b) i v ∧
      Tensor.writes_preserve s1.heap (s1.objs b) (s1.objs a) i v) := by
  constructor
  · obtain ⟨t, h1, hcopy, _, _, htvalid, hframe, hnext, _, _, hdata⟩ :=
      Tensor_copy_ok s.heap (s.objs a) ha
    have ha1 : (s.objs a).Valid h1 := ha.frame (hframe _ ha.ne_fresh) hnext
    have hne := ha.ne_of_fresh hdata
    exact ⟨t, h1, hcopy, writes_preserve_of_disjoint h1 _ _ i v ha1 hne.1,
      writes_preserve_of_disjoint h1 _ _ i v htvalid hne.2⟩
  · obtain ⟨s1, hrun, hobjs, _, _, hbvalid, havalid, _, _, _, hdata⟩ :=
      operator_assign_copy_ok s b a (Ne.symm hab) hb ha hdisj
    have hne := ha.ne_of_fresh hdata
    rw [← hobjs a hab] at havalid hne
    exact ⟨s1, hrun, writes_preserve_of_disjoint s1.heap _ _ i v havalid hne.1,
      writes_preserve_of_disjoint s1.heap _ _ i v hbvalid hne.2⟩

/-- C6 at the test state: after copying `tensor_a`, writing 7 at index 1 of the
original, or filling it with 7, leaves the copy as it was, and conversely. -/
theorem C6_copy_independence_witness :
    (0 : Nat) ≠ 1 ∧ (test_state.objs 0).Valid test_state.heap ∧
    (test_state.objs 1).Valid test_state.heap ∧
    ((test_state.objs 1).data_ ≠ nullptr →
      (test_state.objs 1).data_ ≠ (test_state.objs 0).data_) ∧
    ((∃ t h1, Tensor.Tensor_copy test_state.heap (test_state.objs 0) = .ok (t, h1) ∧
      Tensor.writes_preserve h1 (test_state.objs 0) t 1 7 ∧
      Tensor.writes_preserve h1 t (test_state.objs 0) 1 7) ∧
    (∃ s1, Tensor.operator_assign_copy test_state 1 0 = .ok s1 ∧
      Tensor.writes_preserve s1.heap (s1.objs 0) (s1.objs 1) 1 7 ∧
      Tensor.writes_preserve s1.heap (s1.objs 1) (s1.objs 0) 1 7)) :=
  ⟨by decide, by decide, by decide, by decide,
    C6_copy_independence test_state 0 1 1 7 (by decide) (by decide) (by decide) (by decide)⟩

/-- C7: moving a tensor `a` into `b`, by the move constructor or by move assignment
onto another tensor, gives `b` the length `a` had and, at every index, the
element `a` had; the moved-from `a` is left empty: length 0 and a null buffer. -/
theorem C7_move_transfers (s : State F) (a b : Nat) (hab : a ≠ b)
    (ha : (s.objs a).Valid s.heap) (hb : (s.objs b).Valid s.heap)
    (hdisj : (s.objs b).data_ ≠ nullptr → (s.objs b).data_ ≠ (s.objs a).data_) :
    ((Tensor.Tensor_move (s.objs a)).1.size_ = (s.objs a).size_ ∧
      (∀ i, i < (s.objs a).size_ → ∃ x, Tensor.get s.heap (s.objs a) i = .ok x ∧
        Tensor.get s.heap (Tensor.Tensor_move (s.objs a)).1 i = .ok x) ∧
      Tensor.to_vector s.heap (Tensor.Tensor_move (s.objs a)).1 =
        Tensor.to_vector s.heap (s.objs a) ∧
      (Tensor.Tensor_move (s.objs a)).2.size_ = 0 ∧
      (Tensor.Tensor_move (s.objs a)).2.data_ = nullptr) ∧
    (∃ s', Tensor.operator_assign_move s b a = .ok s' ∧
      (s'.objs b).size_ = (s.objs a).size_ ∧
      (∀ i, i < (s.objs a).size_ → ∃ x, Tensor.get s.heap (s.objs a) i = .ok x ∧
        Tensor.get s'.heap (s'.objs b) i = .ok x) ∧
      Tensor.to_vector s'.heap (s'.objs b) = Tensor.to_vector s.heap (s.objs a) ∧
      (s'.objs a).size_ = 0 ∧ (s'.objs a).data_ = nullptr) := by
  constructor
  · refine ⟨rfl, ?_, rfl, rfl, rfl⟩
    intro i hi
    obtain ⟨c, _, hg⟩ := ha.get_ok hi
    exact ⟨c.val, hg, hg⟩
  · obtain ⟨s', hrun, _, hthis, hother, hkeep, _, _⟩ :=
      operator_assign_move_ok s b a (Ne.symm hab) hb hdisj
    refine ⟨s', hrun, by rw [hthis], ?_, ?_, by rw [hother], by rw [hother]⟩
    · intro i hi
      obtain ⟨c, _, hg⟩ := ha.get_ok hi
      refine ⟨c.val, hg, ?_⟩
      rw [hthis, Tensor.get_congr hkeep i]
      exact hg
    · rw [hthis]
      exact Tensor.to_vector_congr hkeep

/-- C7 at the test state: moving `tensor_a` onto `tensor_b` leaves object 1 reading
back as `[1, 2, 3]` and object 0 empty. -/
theorem C7_move_transfers_witness :
    (0 : Nat) ≠ 1 ∧ (test_state.objs 0).Valid test_state.heap ∧
    (test_state.objs 1).Valid test_state.heap ∧
    (∃ s', Tensor.operator_assign_move test_state 1 0 = .ok s' ∧
      (s'.objs 1).size_ = 3 ∧
      Tensor.to_vector s'.heap (s'.objs 1) = .ok [1, 2, 3] ∧
      (s'.objs 0).size_ = 0 ∧ (s'.objs 0).data_ = nullptr) := by
  refine ⟨by decide, by decide, by decide, ?_⟩
  obtain ⟨s', hrun, hsize, _, hvec, hzero, hnull⟩ :=
    (C7_move_transfers test_state 0 1 (by decide) (by decide) (by decide) (by decide)).2
  exact ⟨s', hrun, hsize, hvec, hzero, hnull⟩

/-- C8: for every tensor `a` and scalar `s`, `operator*` succeeds and returns a
tensor of the length of `a` whose element at every index `i` is `a[i] * s`;
read back as a vector the result is the operand with every value multiplied
by `s` (so `[1,2,3] * 2` is `[1*2, 2*2, 3*2]`), and the product of an empty
tensor is an empty tensor without storage. -/
theorem C8_scale_elementwise [Mul F] (h : Heap F) (a : Tensor) (s : F) (ha : a.Valid h) :
    ∃ r h', Tensor.operator_mul h a s = .ok (r, h') ∧ r.size_ = a.size_ ∧
      (∀ i, i < a.size_ → ∃ x, Tensor.get h a i = .ok x ∧ Tensor.get h' r i = .ok (x * s)) ∧
      (∃ xs, Tensor.to_vector h a = .ok xs ∧
        Tensor.to_vector h' r = .ok (xs.map fun x => x * s)) ∧
      (a.size_ = 0 → r.data_ = nullptr ∧ Tensor.to_vector h' r = .ok []) := by
  obtain ⟨h', hrun, hvalid, _, _, _, hrlen, hcell⟩ := operator_mul_ok h a s ha
  refine ⟨_, h', hrun, Tensor_size_size h a.size_, ?_, ⟨_, ha.to_vector_ok, ?_⟩, ?_⟩
  · intro i hi
    obtain ⟨v, hv, ca, hca, hval⟩ := hcell i hi
    refine ⟨ca.val, ha.get_of_cell hi hca, ?_⟩
    rw [hvalid.get_of_cell (by rw [Tensor_size_size]; exact hi) hv, hval]
  · rw [hvalid.to_vector_ok]
    exact congrArg Except.ok
      (cells_map (fun x => x * s) _ _ a.size_ hrlen ha.cells_length hcell)
  · intro h0
    have hnil : (Tensor.Tensor_size h a.size_).1.cells h' = [] :=
      List.length_eq_zero.mp (by rw [hrlen, h0])
    refine ⟨by rw [h0, Tensor_size_zero], ?_⟩
    rw [hvalid.to_vector_ok, hnil]
    rfl

/-- C8 at the operand of the test: `[1, 2, 3] * 2` is `[2, 4, 6]`. -/
theorem C8_scale_elementwise_witness :
    tensor_a.Valid test_heap ∧
    ∃ r h', Tensor.operator_mul test_heap tensor_a 2 = .ok (r, h') ∧
      Tensor.to_vector h' r = .ok [2, 4, 6] := by
  refine ⟨by decide, ?_⟩
  obtain ⟨r, h', hrun, _, _, ⟨xs, hxs, hres⟩, _⟩ :=
    C8_scale_elementwise test_heap tensor_a 2 (by decide)
  have hx : xs = [1, 2, 3] := by
    have h1 : Tensor.to_vector test_heap tensor_a = .ok [1, 2, 3] := rfl
    rw [h1] at hxs
    exact (Except.ok.inj hxs).symm
  subst hx
  exact ⟨r, h', hrun, hres⟩

/-- C9: for every `n`, `zeros(n)` succeeds with a tensor of length `n` whose every
element is `0.0`, and `ones(n)` with a tensor of length `n` whose every element
is `1.0`; for `n = 0` both are empty tensors without storage. -/
theorem C9_zeros_ones [Zero F] [One F] (h : Heap F) (n : Nat) :
    (∃ t h', Tensor.zeros h n = .ok (t, h') ∧ t.size_ = n ∧
      (∀ i, i < n → Tensor.get h' t i = .ok (0 : F)) ∧
      Tensor.to_vector h' t = .ok (List.replicate n (0 : F)) ∧
      (n = 0 → t.data_ = nullptr)) ∧
    (∃ t h', Tensor.ones h n = .ok (t, h') ∧ t.size_ = n ∧
      (∀ i, i < n → Tensor.get h' t i = .ok (1 : F)) ∧
      Tensor.to_vector h' t = .ok (List.replicate n (1 : F)) ∧
      (n = 0 → t.data_ = nullptr)) := by
  have key : ∀ v : F, ∃ h', Tensor.fill (Tensor.Tensor_size h n).2 (Tensor.Tensor_size h n).1 v
      = .ok h' ∧
      (∀ i, i < n → Tensor.get h' (Tensor.Tensor_size h n).1 i = .ok v) ∧
      Tensor.to_vector h' (Tensor.Tensor_size h n).1 = .ok (List.replicate n v) := by
    intro v
    obtain ⟨h', hfill, hvalid, _, _, _, hcells⟩ := fresh_fill_ok h n v
    refine ⟨h', hfill, ?_, ?_⟩
    · intro i hi
      have hc : ((Tensor.Tensor_size h n).1.cells h')[i]? = some (Cell.mk v true) := by
        rw [hcells, List.getElem?_replicate, if_pos hi]
      exact hvalid.get_of_cell (by rw [Tensor_size_size]; exact hi) hc
    · rw [hvalid.to_vector_ok, hcells]
      simp
  have hnull : n = 0 → (Tensor.Tensor_size h n).1.data_ = nullptr := by
    intro h0
    rw [h0, Tensor_size_zero]
  constructor
  · obtain ⟨h', hfill, hget, hvec⟩ := key 0
    exact ⟨_, h', by simp only [Tensor.zeros, hfill], Tensor_size_size h n, hget, hvec, hnull⟩
  · obtain ⟨h', hfill, hget, hvec⟩ := key 1
    exact ⟨_, h', by simp only [Tensor.ones, hfill], Tensor_size_size h n, hget, hvec, hnull⟩

/-- C10: `operator+`, `operator-` and `operator*` do not mutate their operands: when
the call succeeds, every read of `a` and of `b` and their conversions to a
vector give afterwards what they gave before, and the length of the result is
the length of the operands; when the lengths differ, `operator+` and
`operator-` throw before any allocation or store. -/
theorem C10_operands_unchanged [Add F] [Sub F] [Mul F] (h : Heap F) (a b : Tensor) (s : F)
    (ha : a.Valid h) (hb : b.Valid h) :
    (a.size_ = b.size_ →
      (∃ r h', Tensor.operator_plus h a b = .ok (r, h') ∧
        r.size_ = a.size_ ∧ r.size_ = b.size_ ∧
        (∀ i, Tensor.get h' a i = Tensor.get h a i) ∧
        (∀ i, Tensor.get h' b i = Tensor.get h b i) ∧
        Tensor.to_vector h' a = Tensor.to_vector h a ∧
        Tensor.to_vector h' b = Tensor.to_vector h b) ∧
      (∃ r h', Tensor.operator_minus h a b = .ok (r, h') ∧
        r.size_ = a.size_ ∧ r.size_ = b.size_ ∧
        (∀ i, Tensor.get h' a i = Tensor.get h a i) ∧
        (∀ i, Tensor.get h' b i = Tensor.get h b i) ∧
        Tensor.to_vector h' a = Tensor.to_vector h a ∧
        Tensor.to_vector h' b = Tensor.to_vector h b)) ∧
    (a.size_ ≠ b.size_ →
      Tensor.operator_plus h a b = .error .invalid_argument ∧
      Tensor.operator_minus h a b = .error .invalid_argument) ∧
    (∃ r h', Tensor.operator_mul h a s = .ok (r, h') ∧ r.size_ = a.size_ ∧
      (∀ i, Tensor.get h' a i = Tensor.get h a i) ∧
      Tensor.to_vector h' a = Tensor.to_vector h a) := by
  refine ⟨?_, ?_, ?_⟩
  · intro hlen
    constructor
    · obtain ⟨h', hrun, _, hframe, _⟩ := operator_plus_ok h a b ha hb hlen
      have hka := hframe _ ha.ne_fresh
      have hkb := hframe _ hb.ne_fresh
      exact ⟨_, h', hrun, Tensor_size_size h a.size_, by rw [Tensor_size_size, hlen],
        fun i => Tensor.get_congr hka i, fun i => Tensor.get_congr hkb i,
        Tensor.to_vector_congr hka, Tensor.to_vector_congr hkb⟩
    · obtain ⟨h', hrun, _, hframe, _⟩ := operator_minus_ok h a b ha hb hlen
      have hka := hframe _ ha.ne_fresh
      have hkb := hframe _ hb.ne_fresh
      exact ⟨_, h', hrun, Tensor_size_size h a.size_, by rw [Tensor_size_size, hlen],
        fun i => Tensor.get_congr hka i, fun i => Tensor.get_congr hkb i,
        Tensor.to_vector_congr hka, Tensor.to_vector_congr hkb⟩
  · intro hlen
    constructor
    · unfold Tensor.operator_plus
      rw [if_pos hlen]
    · unfold Tensor.operator_minus
      rw [if_pos hlen]
  · obtain ⟨h', hrun, _, hframe, _⟩ := operator_mul_ok h a s ha
    have hka := hframe _ ha.ne_fresh
    exact ⟨_, h', hrun, Tensor_size_size h a.size_, fun i => Tensor.get_congr hka i,
      Tensor.to_vector_congr hka⟩

/-- C10 at the operands of the test: after `tensor_a + tensor_b` both operands read
back as before. -/
theorem C10_operands_unchanged_witness :
    tensor_a.Valid test_heap ∧ tensor_b.Valid test_heap ∧ tensor_a.size_ = tensor_b.size_ ∧
    ∃ r h', Tensor.operator_plus test_heap tensor_a tensor_b = .ok (r, h') ∧
      Tensor.to_vector h' tensor_a = .ok [1, 2, 3] ∧
      Tensor.to_vector h' tensor_b = .ok [4, 5, 6] := by
  refine ⟨by decide, by decide, rfl, ?_⟩
  obtain ⟨r, h', hrun, _, _, _, _, hva, hvb⟩ :=
    ((C10_operands_unchanged test_heap tensor_a tensor_b 2 (by decide) (by decide)).1 rfl).1
  exact ⟨r, h', hrun, hva, hvb⟩

/-! ## Rendering -/

/-- The wrapping `size_t` subtraction `n - 1` is the ordinary one for `1 <= n < 2^64`,
and `2^64 - 1` for `n = 0`. -/
theorem size_t_sub_one (n : Nat) (hn : n < 2 ^ 64) :
    size_t_sub n 1 = if n = 0 then 2 ^ 64 - 1 else n - 1 := by
  unfold size_t_sub
  norm_num at hn ⊢
  split <;> omega

/-- One step of a loop whose body succeeds. -/
theorem forLoop_succ_ok {σ : Type} (body : Nat → σ → Except Exn σ) (k i : Nat) (s s1 : σ)
    (hb : body i s = .ok s1) : forLoop body (k + 1) i s = forLoop body k (i + 1) s1 := by
  rw [forLoop, hb]

/-- The body of the loop of `print` at an index inside a valid tensor: the value is
inserted under `std::fixed` and precision 4, followed by `", "` unless the
index is the last. -/
theorem print_body_ok (h : Heap F) (t : Tensor) (hbound : t.size_ < 2 ^ 64)
    (i : Nat) (o : OStream F) (c : Cell F) (hi : i < t.size_)
    (hload : h.load t.data_ i = .ok c.val) :
    Tensor.print_body h t i o =
      if i < t.size_ - 1 then
        .ok ((((o.put_fixed).put_setprecision 4).put_value c.val).put_text ", ")
      else
        .ok (((o.put_fixed).put_setprecision 4).put_value c.val) := by
  have hsub : size_t_sub t.size_ 1 = t.size_ - 1 := by
    rw [size_t_sub_one t.size_ hbound, if_neg (by omega)]
  unfold Tensor.print_body
  rw [hload, hsub]

/-- The loop of `print` over a live block: from index `i` on, it inserts the remaining
values under `std::fixed` and precision 4, with `", "` between consecutive
ones and nothing after the last. -/
theorem print_loop (h : Heap F) (t : Tensor) (ht : t.Valid h) (hbound : t.size_ < 2 ^ 64) :
    ∀ (k i : Nat) (o : OStream F), i + k = t.size_ →
      ∃ o', forLoop (Tensor.print_body h t) k i o = .ok o' ∧
        o'.out = o.out ++
          (((t.cells h).drop i).map (fun c => Out.value true 4 c.val)).intersperse
            (Out.text ", ") := by
  intro k
  induction k with
  | zero =>
    intro i o hik
    have hlen := ht.cells_length
    refine ⟨o, rfl, ?_⟩
    rw [List.drop_of_length_le (by omega)]
    simp
  | succ k ih =>
    intro i o hik
    have hlen := ht.cells_length
    have hi : i < t.size_ := by omega
    obtain ⟨c, hc, hload⟩ := ht.load_cell hi
    have hi' : i < (t.cells h).length := by omega
    have hci : (t.cells h)[i] = c := by
      have := List.getElem?_eq_getElem hi'
      rw [hc] at this
      exact (Option.some.inj this).symm
    have hdrop : (t.cells h).drop i = c :: (t.cells h).drop (i + 1) := by
      rw [List.drop_eq_getElem_cons hi', hci]
    have hbody := print_body_ok h t hbound i o c hi hload
    by_cases hlast : i < t.size_ - 1
    · rw [if_pos hlast] at hbody
      obtain ⟨o', hrun, hout⟩ := ih (i + 1)
        ((((o.put_fixed).put_setprecision 4).put_value c.val).put_text ", ") (by omega)
      refine ⟨o', ?_, ?_⟩
      · rw [forLoop_succ_ok _ k i o _ hbody]
        exact hrun
      · have hi2 : i + 1 < (t.cells h).length := by omega
        obtain ⟨d, r, hr⟩ : ∃ d r, (t.cells h).drop (i + 1) = d :: r :=
          ⟨_, _, List.drop_eq_getElem_cons hi2⟩
        rw [hout, hdrop, hr]
        simp [OStream.put_text, OStream.put_value, OStream.put_setprecision,
          OStream.put_fixed]
    · rw [if_neg hlast] at hbody
      obtain ⟨o', hrun, hout⟩ := ih (i + 1)
        (((o.put_fixed).put_setprecision 4).put_value c.val) (by omega)
      refine ⟨o', ?_, ?_⟩
      · rw [forLoop_succ_ok _ k i o _ hbody]
        exact hrun
      · rw [hout, hdrop, List.drop_of_length_le (by omega)]
        simp [OStream.put_value, OStream.put_setprecision, OStream.put_fixed]

/-- What `print` inserts for a valid tensor. -/
theorem print_ok (h : Heap F) (t : Tensor) (os : OStream F) (ht : t.Valid h)
    (hbound : t.size_ < 2 ^ 64) :
    ∃ os', Tensor.print h t os = .ok os' ∧
      os'.out = os.out ++ [Out.text "Tensor(["] ++
        (((t.cells h).map Cell.val).map (Out.value true 4)).intersperse (Out.text ", ") ++
        [Out.text "])", Out.char '\n'] := by
  obtain ⟨o', hrun, hout⟩ := print_loop h t ht hbound t.size_ 0 (os.put_text "Tensor([")
    (by omega)
  refine ⟨(o'.put_text "])").put_char '\n', ?_, ?_⟩
  · unfold Tensor.print
    simp only [hrun]
  · simp [OStream.put_text, OStream.put_char, hout, Function.comp_def]

theorem render_append (fmt : Bool → Nat → F → String) (a b : List (Out F)) :
    render fmt (a ++ b) = render fmt a ++ render fmt b := by
  apply String.ext
  simp [render]

theorem intercalate_go_data (sep : String) :
    ∀ (ys : List String) (acc : String),
      (String.intercalate.go acc sep ys).data =
        acc.data ++ (ys.map fun y => sep.data ++ y.data).flatten := by
  intro ys
  induction ys with
  | nil => intro acc; simp [String.intercalate.go]
  | cons y ys ih =>
    intro acc
    rw [String.intercalate.go, ih]
    simp

/-- The text of values inserted with a separator literal between them is the
separator-joined text of the formatted values. -/
theorem render_intersperse (fmt : Bool → Nat → F → String) (sep : String) (fixed : Bool)
    (precision : Nat) (xs : List F) :
    render fmt ((xs.map (Out.value fixed precision)).intersperse (Out.text sep)) =
      sep.intercalate (xs.map (fmt fixed precision)) := by
  apply String.ext
  cases xs with
  | nil => simp [render, String.intercalate]
  | cons x xs =>
    rw [List.map_cons, List.map_cons, String.intercalate, intercalate_go_data]
    induction xs generalizing x with
    | nil => simp [render, Out.chars]
    | cons y ys ih =>
      have := ih y
      simp only [render, List.map_cons, List.intersperse_cons₂, List.flatten_cons,
        Out.chars] at this ⊢
      rw [this]
      simp

theorem countP_separator_intersperse (fixed : Bool) (precision : Nat) (xs : List F) :
    ((xs.map (Out.value fixed precision)).intersperse (Out.text ", ")).countP
        Out.is_separator = xs.length - 1 ∧
    ((xs.map (Out.value fixed precision)).intersperse (Out.text ", ")).countP
        Out.is_value = xs.length := by
  cases xs with
  | nil => simp
  | cons x xs =>
    induction xs generalizing x with
    | nil => simp [Out.is_separator, Out.is_value]
    | cons y ys ih =>
      have := ih y
      simp only [List.map_cons, List.intersperse_cons₂, List.length_cons, List.countP_cons,
        Out.is_separator, Out.is_value] at this ⊢
      rw [this.1, this.2]
      have hs : ((", " : String) == ", ") = true := by decide
      simp only [hs, if_true, Bool.false_eq_true, if_false]
      exact ⟨by omega, trivial⟩

/-- C11 as the code has it: for a tensor with elements `v0..vN-1`, `print` inserts
into the stream the literal `Tensor([`, then the values in order, each
formatted under `std::fixed` with precision 4, with the literal `", "` between
consecutive values and none after the last, then `])` and a newline; the text
written is `Tensor([v0, v1, ..., vN-1])` followed by a newline. -/
theorem C11_print_format (fmt : Bool → Nat → F → String) (h : Heap F) (t : Tensor)
    (os : OStream F) (ht : t.Valid h) (hbound : t.size_ < 2 ^ 64) :
    ∃ xs os', Tensor.to_vector h t = .ok xs ∧ Tensor.print h t os = .ok os' ∧
      os'.out = os.out ++ [Out.text "Tensor(["] ++
        (xs.map (Out.value true 4)).intersperse (Out.text ", ") ++
        [Out.text "])", Out.char '\n'] ∧
      render fmt os'.out =
        render fmt os.out ++ "Tensor([" ++ ", ".intercalate (xs.map (fmt true 4)) ++ "])\n" := by
  obtain ⟨os', hrun, hout⟩ := print_ok h t os ht hbound
  refine ⟨_, os', ht.to_vector_ok, hrun, hout, ?_⟩
  rw [hout, render_append, render_append, render_append, render_intersperse]
  rfl

/-- C11 at the tensor `[1.0, 2.5]`: the text written is `Tensor([1.0000, 2.5000])`
and a newline. -/
theorem C11_print_format_witness :
    print_tensor.Valid print_heap ∧ print_tensor.size_ < 2 ^ 64 ∧
    ∃ os', Tensor.print print_heap print_tensor OStream.fresh = .ok os' ∧
      render (fun _ _ n => fixed4 n) os'.out = "Tensor([1.0000, 2.5000])\n" := by
  refine ⟨by decide, by decide, ?_⟩
  obtain ⟨xs, os', hxs, hrun, _, htext⟩ :=
    C11_print_format (fun _ _ n => fixed4 n) print_heap print_tensor OStream.fresh
      (by decide) (by decide)
  have hx : xs = [10000, 25000] := by
    have h1 : Tensor.to_vector print_heap print_tensor = .ok [10000, 25000] := rfl
    rw [h1] at hxs
    exact (Except.ok.inj hxs).symm
  subst hx
  exact ⟨os', hrun, by rw [htext]; decide⟩

/-- C11 as stated fails on the tensor `[1.0, 2.5]`: what `print` writes is
`Tensor([1.0000, 2.5000])` followed by a newline, not
`Vector1D([1.0000, 2.5000])`. -/
theorem C11_render_counterexample :
    ∃ os', Tensor.print print_heap print_tensor OStream.fresh = .ok os' ∧
      render (fun _ _ n => fixed4 n) os'.out = "Tensor([1.0000, 2.5000])\n" ∧
      render (fun _ _ n => fixed4 n) os'.out ≠ "Vector1D([1.0000, 2.5000])" :=
  ⟨_, rfl, by decide, by decide⟩

/-- C19: the separator test of `print` compares with `size_ - 1` in `size_t`
arithmetic, which is `2^64 - 1` for an empty tensor; the loop body is not
entered then, and `print` inserts the prefix literal immediately followed by
`])` (and the newline), with no value and no separator. For a tensor of
length `n >= 1` it inserts exactly `n` values and `n - 1` separators. -/
theorem C19_print_empty_and_separators (h : Heap F) (t : Tensor) (os : OStream F)
    (ht : t.Valid h) (hbound : t.size_ < 2 ^ 64) :
    size_t_sub 0 1 = 2 ^ 64 - 1 ∧
    (t.size_ = 0 →
      Tensor.print h t os =
        .ok { os with
              out := os.out ++ [Out.text "Tensor([", Out.text "])", Out.char '\n'] }) ∧
    (∃ os' emitted, Tensor.print h t os = .ok os' ∧ os'.out = os.out ++ emitted ∧
      emitted.countP Out.is_value = t.size_ ∧
      (t.size_ = 0 → emitted.countP Out.is_separator = 0) ∧
      (1 ≤ t.size_ → emitted.countP Out.is_separator = t.size_ - 1)) := by
  refine ⟨by decide, ?_, ?_⟩
  · intro h0
    unfold Tensor.print
    rw [h0]
    simp [forLoop, OStream.put_text, OStream.put_char]
  · obtain ⟨os', hrun, hout⟩ := print_ok h t os ht hbound
    have hcount := countP_separator_intersperse true 4 ((t.cells h).map Cell.val)
    have hlen : ((t.cells h).map Cell.val).length = t.size_ := by
      rw [List.length_map, ht.cells_length]
    rw [hlen] at hcount
    refine ⟨os', [Out.text "Tensor(["] ++
        (((t.cells h).map Cell.val).map (Out.value true 4)).intersperse (Out.text ", ") ++
        [Out.text "])", Out.char '\n'], hrun, by rw [hout]; simp, ?_, ?_, ?_⟩
    · simp only [List.countP_append, hcount.2]
      simp [Out.is_value]
    · intro h0
      simp only [List.countP_append, hcount.1, h0]
      simp [Out.is_separator]
    · intro _
      simp only [List.countP_append, hcount.1]
      simp [Out.is_separator]

/-- C19 at an empty tensor and at `[1.0, 2.5]`: nothing between the prefix and the
suffix for the first, two values and one separator for the second. -/
theorem C19_print_empty_and_separators_witness :
    Tensor.Tensor_default.Valid print_heap ∧ print_tensor.Valid print_heap ∧
    Tensor.print print_heap Tensor.Tensor_default OStream.fresh =
      .ok { fixed := false, precision := 6,
            out := [Out.text "Tensor([", Out.text "])", Out.char '\n'] } ∧
    (∃ os' emitted, Tensor.print print_heap print_tensor OStream.fresh = .ok os' ∧
      os'.out = OStream.fresh.out ++ emitted ∧ emitted.countP Out.is_value = 2 ∧
      emitted.countP Out.is_separator = 1) := by
  refine ⟨by decide, by decide, ?_, ?_⟩
  · exact (C19_print_empty_and_separators print_heap Tensor.Tensor_default OStream.fresh
      (by decide) (by decide)).2.1 rfl
  · obtain ⟨os', emitted, hrun, hout, hval, _, hsep⟩ :=
      (C19_print_empty_and_separators print_heap print_tensor OStream.fresh
        (by decide) (by decide)).2.2
    exact ⟨os', emitted, hrun, hout, hval, hsep (by decide)⟩

/-! ## Construction and initialization -/

/-- What `Tensor(n)` does: the new tensor is valid, its buffer has exactly `n` cells,
none of them written, and no block that existed before is touched. -/
theorem Tensor_size_ok (h : Heap F) (n : Nat) :
    (Tensor.Tensor_size h n).1.Valid (Tensor.Tensor_size h n).2 ∧
    (∀ p, p ≠ h.next + 1 → (Tensor.Tensor_size h n).2.mem p = h.mem p) ∧
    h.next ≤ (Tensor.Tensor_size h n).2.next ∧
    ((Tensor.Tensor_size h n).1.data_ = nullptr ∨
      (Tensor.Tensor_size h n).1.data_ = h.next + 1) ∧
    (Tensor.Tensor_size h n).1.cells (Tensor.Tensor_size h n).2 =
      (List.range n).map fun i => Cell.mk (h.garbage (h.next + 1) i) false := by
  rcases Nat.eq_zero_or_pos n with hn | hn
  · subst hn
    rw [Tensor_size_zero]
    exact ⟨by simp [Tensor.Valid], fun _ _ => rfl, le_refl _, Or.inl rfl,
      by simp [Tensor.cells]⟩
  · rw [Tensor_size_pos h n hn]
    refine ⟨?_, ?_, ?_, Or.inr rfl, ?_⟩
    · unfold Tensor.Valid
      simp [Heap.new_array, hn]
    · intro p hp
      simp [Heap.new_array, Function.update_noteq hp]
    · simp [Heap.new_array]
    · simp [Tensor.cells, Heap.new_array]

/-- A buffer whose every position below its length holds a written cell is
initialized. -/
theorem initialized_of_cells (h : Heap F) (t : Tensor) (n : Nat) (Q : Nat → F → Prop)
    (hlen : (t.cells h).length = n)
    (hcell : ∀ i, i < n → ∃ v, (t.cells h)[i]? = some (Cell.mk v true) ∧ Q i v) :
    t.initialized h := by
  intro c hc
  obtain ⟨i, hi, hget⟩ := List.getElem_of_mem hc
  obtain ⟨v, hv, _⟩ := hcell i (by omega)
  rw [List.getElem?_eq_getElem hi, hget] at hv
  cases hv
  rfl

/-- What `random` does: it succeeds, the new tensor is valid, every cell of it has
been written with a draw of the generator, and no block that existed before is
touched. -/
theorem random_ok {G : Type} (distribution : G → F × G) (h : Heap F) (g : G) (n : Nat) :
    ∃ h' g', Tensor.random distribution h g n = .ok ((Tensor.Tensor_size h n).1, h', g') ∧
      (Tensor.Tensor_size h n).1.Valid h' ∧
      (∀ p, p ≠ h.next + 1 → h'.mem p = h.mem p) ∧
      h.next ≤ h'.next ∧
      ((Tensor.Tensor_size h n).1.cells h').length = n ∧
      ∀ i, i < n →
        ∃ v, ((Tensor.Tensor_size h n).1.cells h')[i]? = some (Cell.mk v true) ∧
          ∃ g0, v = (distribution g0).1 := by
  obtain ⟨hvalid0, hframe0, hnext0, hdata0, hcells0⟩ := Tensor_size_ok h n
  have hlen0 : ((Tensor.Tensor_size h n).1.cells (Tensor.Tensor_size h n).2).length = n := by
    rw [hcells0]
    simp
  have key := forLoop_invariant
    (fun i (st : Heap F × G) =>
      match st.1.store (Tensor.Tensor_size h n).1.data_ i (distribution st.2).1 with
      | .ok h1 => Except.ok (h1, (distribution st.2).2)
      | .error e => .error e)
    (fun j st => (Tensor.Tensor_size h n).1.Valid st.1 ∧
      (∀ p, p ≠ h.next + 1 → st.1.mem p = h.mem p) ∧ h.next ≤ st.1.next ∧
      ((Tensor.Tensor_size h n).1.cells st.1).length = n ∧
      ∀ i, i < j → ∃ v, ((Tensor.Tensor_size h n).1.cells st.1)[i]? = some (Cell.mk v true) ∧
        ∃ g0, v = (distribution g0).1)
    n 0 ((Tensor.Tensor_size h n).2, g)
    ⟨hvalid0, hframe0, hnext0, hlen0, fun i hi => absurd hi (Nat.not_lt_zero i)⟩
    (by
      intro j st _ hj hP
      obtain ⟨hvalid, hframe, hnext, hlen, hdone⟩ := hP
      have hjn : j < (Tensor.Tensor_size h n).1.size_ := by
        rw [Tensor_size_size]
        omega
      obtain ⟨h1, hset, hnext1, _, hframe1, hvalid1, hcells1⟩ :=
        set_ok st.1 (Tensor.Tensor_size h n).1 j (distribution st.2).1 hvalid hjn
      have hstore : st.1.store (Tensor.Tensor_size h n).1.data_ j (distribution st.2).1 =
          .ok h1 := by
        have hno : ¬ j ≥ (Tensor.Tensor_size h n).1.size_ := by omega
        simpa [Tensor.set, Tensor.operator_index, hno] using hset
      have hdata : (Tensor.Tensor_size h n).1.data_ = h.next + 1 :=
        Tensor_size_data h n (by omega)
      refine ⟨(h1, (distribution st.2).2), by simp only [hstore], hvalid1, ?_, ?_, ?_, ?_⟩
      · intro p hp
        show h1.mem p = h.mem p
        rw [hframe1 p (by rw [hdata]; exact hp), hframe p hp]
      · show h.next ≤ h1.next
        omega
      · show ((Tensor.Tensor_size h n).1.cells h1).length = n
        rw [hcells1, List.length_set, hlen]
      · intro i hi
        show ∃ v, ((Tensor.Tensor_size h n).1.cells h1)[i]? = some (Cell.mk v true) ∧ _
        rw [hcells1]
        by_cases hij : i = j
        · subst hij
          exact ⟨(distribution st.2).1, List.getElem?_set_self (by rw [hlen]; omega), st.2, rfl⟩
        · obtain ⟨w, hw, hg⟩ := hdone i (by omega)
          exact ⟨w, by rw [List.getElem?_set_ne (Ne.symm hij)]; exact hw, hg⟩)
  obtain ⟨st, hrun, hvalid, hframe, hnext, hlen, hdone⟩ := key
  refine ⟨st.1, st.2, ?_, hvalid, hframe, hnext, hlen, fun i hi => hdone i (by omega)⟩
  unfold Tensor.random
  simp only [hrun]

/-- C12 as the code has it: after construction by `Tensor()`, from a vector, by
`zeros`, `ones` or `random`, the buffer holds exactly `length` elements and
every one of them is initialized; after `Tensor(n)` it holds exactly `n`
elements, none of them initialized; after copy or move construction it holds
exactly `length` elements, the cells of the source as they were, initialized
or not. -/
theorem C12_construction_initialized [Zero F] [One F] {G : Type}
    (distribution : G → F × G) (h : Heap F) (g : G) (n : Nat) (S : List F) (a : Tensor)
    (ha : a.Valid h) :
    (Tensor.Tensor_default.cells h = [] ∧ Tensor.Tensor_default.size_ = 0) ∧
    (((Tensor.Tensor_size h n).1.cells (Tensor.Tensor_size h n).2).length =
        (Tensor.Tensor_size h n).1.size_ ∧
      ∀ c ∈ (Tensor.Tensor_size h n).1.cells (Tensor.Tensor_size h n).2, c.init = false) ∧
    (∃ t h', Tensor.Tensor_vector h S = .ok (t, h') ∧ (t.cells h').length = t.size_ ∧
      t.initialized h') ∧
    (∃ t h', Tensor.zeros h n = .ok (t, h') ∧ (t.cells h').length = t.size_ ∧
      t.initialized h') ∧
    (∃ t h', Tensor.ones h n = .ok (t, h') ∧ (t.cells h').length = t.size_ ∧
      t.initialized h') ∧
    (∃ t h' g', Tensor.random distribution h g n = .ok (t, h', g') ∧
      (t.cells h').length = t.size_ ∧ t.initialized h') ∧
    (∃ t h', Tensor.Tensor_copy h a = .ok (t, h') ∧ (t.cells h').length = t.size_ ∧
      t.cells h' = a.cells h) ∧
    (((Tensor.Tensor_move a).1.cells h).length = (Tensor.Tensor_move a).1.size_ ∧
      (Tensor.Tensor_move a).1.cells h = a.cells h) := by
  refine ⟨⟨by simp [Tensor.cells, Tensor.Tensor_default], rfl⟩, ?_, ?_, ?_, ?_, ?_, ?_,
    ⟨ha.cells_length, rfl⟩⟩
  · obtain ⟨_, _, _, _, hcells⟩ := Tensor_size_ok h n
    rw [hcells, Tensor_size_size]
    refine ⟨by simp, ?_⟩
    intro c hc
    obtain ⟨i, _, hi⟩ := List.mem_map.mp hc
    rw [← hi]
  · obtain ⟨t, h', hrun, _, _, hvalid, _, _, _, hcells, _⟩ := Tensor_vector_ok h S
    refine ⟨t, h', hrun, hvalid.cells_length, ?_⟩
    intro c hc
    rw [hcells] at hc
    obtain ⟨v, _, hv⟩ := List.mem_map.mp hc
    rw [← hv]
  · obtain ⟨h', hfill, hvalid, _, _, _, hcells⟩ := fresh_fill_ok h n (0 : F)
    refine ⟨_, h', by simp only [Tensor.zeros, hfill], hvalid.cells_length, ?_⟩
    intro c hc
    rw [hcells] at hc
    rw [(List.mem_replicate.mp hc).2]
  · obtain ⟨h', hfill, hvalid, _, _, _, hcells⟩ := fresh_fill_ok h n (1 : F)
    refine ⟨_, h', by simp only [Tensor.ones, hfill], hvalid.cells_length, ?_⟩
    intro c hc
    rw [hcells] at hc
    rw [(List.mem_replicate.mp hc).2]
  · obtain ⟨h', g', hrun, hvalid, _, _, hlen, hcell⟩ := random_ok distribution h g n
    exact ⟨_, h', g', hrun, hvalid.cells_length,
      initialized_of_cells h' _ n (fun _ v => ∃ g0, v = (distribution g0).1) hlen hcell⟩
  · obtain ⟨t, h', hrun, _, _, hvalid, _, _, _, hcells, _⟩ := Tensor_copy_ok h a ha
    exact ⟨t, h', hrun, hvalid.cells_length, hcells⟩

/-- C12 at the test heap: a tensor made by `Tensor(2)` has two cells, neither of them
initialized, and the copy of `[1, 2, 3]` has the three cells of its source. -/
theorem C12_construction_initialized_witness :
    tensor_a.Valid test_heap ∧
    (((Tensor.Tensor_size test_heap 2).1.cells (Tensor.Tensor_size test_heap 2).2).length =
        (Tensor.Tensor_size test_heap 2).1.size_ ∧
      ∀ c ∈ (Tensor.Tensor_size test_heap 2).1.cells (Tensor.Tensor_size test_heap 2).2,
        c.init = false) ∧
    (∃ t h', Tensor.Tensor_copy test_heap tensor_a = .ok (t, h') ∧
      (t.cells h').length = t.size_ ∧ t.cells h' = tensor_a.cells test_heap) :=
  ⟨by decide,
    (C12_construction_initialized test_distribution test_heap 0 2 [] tensor_a
      (by decide)).2.1,
    (C12_construction_initialized test_distribution test_heap 0 2 [] tensor_a
      (by decide)).2.2.2.2.2.2.1⟩

/-- C12 as stated fails for `Tensor(1)`: the tensor has length 1 and its one cell is
not initialized. -/
theorem C12_with_length_counterexample :
    (Tensor.Tensor_size (Heap.empty (0 : Int)) 1).1.size_ = 1 ∧
    ((Tensor.Tensor_size (Heap.empty (0 : Int)) 1).1.cells
      (Tensor.Tensor_size (Heap.empty (0 : Int)) 1).2).length = 1 ∧
    ¬ (Tensor.Tensor_size (Heap.empty (0 : Int)) 1).1.initialized
      (Tensor.Tensor_size (Heap.empty (0 : Int)) 1).2 := by
  refine ⟨by decide, by decide, by decide⟩

/-- C14: for every `n`, the tensor made by `Tensor(n)` has length `n` (and a buffer of
exactly `n` cells, non-null exactly when `n > 0`); the tensor made by `Tensor()`
has length 0 and a null buffer. -/
theorem C14_with_length_and_empty (h : Heap F) (n : Nat) :
    (Tensor.Tensor_size h n).1.size_ = n ∧
    ((Tensor.Tensor_size h n).1.cells (Tensor.Tensor_size h n).2).length = n ∧
    ((Tensor.Tensor_size h n).1.data_ ≠ nullptr ↔ 0 < n) ∧
    Tensor.Tensor_default.size_ = 0 ∧ Tensor.Tensor_default.data_ = nullptr := by
  obtain ⟨hvalid, _, _, _, hcells⟩ := Tensor_size_ok h n
  refine ⟨Tensor_size_size h n, by rw [hcells]; simp, ?_, rfl, rfl⟩
  rcases Nat.eq_zero_or_pos n with hn | hn
  · subst hn
    rw [Tensor_size_zero]
    simp
  · rw [Tensor_size_data h n hn]
    simp [hn]

/-- C15: `fill` on a tensor never fails; afterwards the buffer still has `length`
cells and every element below `length` reads as the value; on an empty tensor
the heap is left as it was. -/
theorem C15_fill_overwrites (h : Heap F) (t : Tensor) (v : F) (ht : t.Valid h) :
    ∃ h', Tensor.fill h t v = .ok h' ∧ t.Valid h' ∧ (t.cells h').length = t.size_ ∧
      (∀ i, i < t.size_ → Tensor.get h' t i = .ok v) ∧
      Tensor.to_vector h' t = .ok (List.replicate t.size_ v) ∧
      (t.size_ = 0 → h' = h) := by
  obtain ⟨h', hfill, _, _, _, hvalid, hcells, hzero⟩ := fill_ok h t v ht
  refine ⟨h', hfill, hvalid, hvalid.cells_length, ?_, ?_, hzero⟩
  · intro i hi
    have hc : (t.cells h')[i]? = some (Cell.mk v true) := by
      rw [hcells, List.getElem?_replicate, if_pos hi]
    exact hvalid.get_of_cell hi hc
  · rw [hvalid.to_vector_ok, hcells]
    simp

/-- C15 at the tensor `[1, 2, 3]`: after `fill(7)` it reads back as `[7, 7, 7]`. -/
theorem C15_fill_overwrites_witness :
    tensor_a.Valid test_heap ∧
    ∃ h', Tensor.fill test_heap tensor_a 7 = .ok h' ∧
      Tensor.to_vector h' tensor_a = .ok [7, 7, 7] := by
  refine ⟨by decide, ?_⟩
  obtain ⟨h', hfill, _, _, _, hvec, _⟩ := C15_fill_overwrites test_heap tensor_a 7 (by decide)
  exact ⟨h', hfill, hvec⟩

/-- C16: for every `n`, `random(n)` succeeds with a tensor of length `n`, and when
every draw of the generator lies between 0 and 1 so does every element. -/
theorem C16_random_in_unit_interval [LE F] [Zero F] [One F] {G : Type}
    (distribution : G → F × G) (h : Heap F) (g : G) (n : Nat)
    (hdraw : ∀ g0, 0 ≤ (distribution g0).1 ∧ (distribution g0).1 ≤ 1) :
    ∃ t h' g', Tensor.random distribution h g n = .ok (t, h', g') ∧ t.size_ = n ∧
      ∀ i, i < n → ∃ x, Tensor.get h' t i = .ok x ∧ 0 ≤ x ∧ x ≤ 1 := by
  obtain ⟨h', g', hrun, hvalid, _, _, _, hcell⟩ := random_ok distribution h g n
  refine ⟨_, h', g', hrun, Tensor_size_size h n, ?_⟩
  intro i hi
  obtain ⟨v, hv, g0, hg0⟩ := hcell i hi
  refine ⟨v, hvalid.get_of_cell (by rw [Tensor_size_size]; exact hi) hv, ?_⟩
  rw [hg0]
  exact hdraw g0

/-- C16 at the test generator, whose draws alternate between 0 and 1: `random(3)`
has length 3 and elements between 0 and 1. -/
theorem C16_random_in_unit_interval_witness :
    (∀ g0, 0 ≤ (test_distribution g0).1 ∧ (test_distribution g0).1 ≤ 1) ∧
    ∃ t h' g', Tensor.random test_distribution test_heap 0 3 = .ok (t, h', g') ∧
      t.size_ = 3 ∧ ∀ i, i < 3 → ∃ x, Tensor.get h' t i = .ok x ∧ 0 ≤ x ∧ x ≤ 1 := by
  have hdraw : ∀ g0, 0 ≤ (test_distribution g0).1 ∧ (test_distribution g0).1 ≤ 1 := by
    intro g0
    simp only [test_distribution]
    omega
  exact ⟨hdraw, C16_random_in_unit_interval test_distribution test_heap 0 3 hdraw⟩

/-- C17: an indexed write inside the bounds succeeds, leaves the buffer with `length`
cells, makes the element at `i` read as `v` and leaves every other element as
it was; an indexed read or write outside the bounds throws `std::out_of_range`
before any store. -/
theorem C17_set_then_get (h : Heap F) (t : Tensor) (i : Nat) (v : F) (ht : t.Valid h) :
    (i < t.size_ →
      ∃ h', Tensor.set h t i v = .ok h' ∧ t.Valid h' ∧ (t.cells h').length = t.size_ ∧
        Tensor.get h' t i = .ok v ∧
        ∀ j, j ≠ i → Tensor.get h' t j = Tensor.get h t j) ∧
    (i ≥ t.size_ →
      Tensor.set h t i v = .error .out_of_range ∧
      Tensor.get h t i = .error .out_of_range ∧
      Tensor.get_mut h t i = .error .out_of_range) := by
  constructor
  · intro hi
    obtain ⟨h', hset, _, _, _, hvalid, hcells⟩ := set_ok h t i v ht hi
    have hlen := ht.cells_length
    refine ⟨h', hset, hvalid, hvalid.cells_length, ?_, ?_⟩
    · have hc : (t.cells h')[i]? = some (Cell.mk v true) := by
        rw [hcells]
        exact List.getElem?_set_self (by omega)
      exact hvalid.get_of_cell hi hc
    · intro j hj
      rw [hvalid.get_eq j, ht.get_eq j, hcells, List.getElem?_set_ne (Ne.symm hj)]
  · intro hi
    refine ⟨?_, ?_, ?_⟩
    · simp [Tensor.set, Tensor.operator_index, hi]
    · simp [Tensor.get, Tensor.operator_index_const, hi]
    · simp [Tensor.get_mut, Tensor.operator_index, hi]

/-- C17 at the tensor `[1, 2, 3]`: writing 7 at index 1 gives `[1, 7, 3]`, and a
write at index 3 throws. -/
theorem C17_set_then_get_witness :
    tensor_a.Valid test_heap ∧
    (∃ h', Tensor.set test_heap tensor_a 1 7 = .ok h' ∧ Tensor.get h' tensor_a 1 = .ok 7 ∧
      Tensor.get h' tensor_a 0 = .ok 1 ∧ Tensor.get h' tensor_a 2 = .ok 3) ∧
    Tensor.set test_heap tensor_a 3 7 = .error .out_of_range := by
  refine ⟨by decide, ?_, ?_⟩
  · obtain ⟨h', hset, _, _, hget, hother⟩ :=
      (C17_set_then_get test_heap tensor_a 1 7 (by decide)).1 (by decide)
    exact ⟨h', hset, hget, by rw [hother 0 (by decide)]; rfl,
      by rw [hother 2 (by decide)]; rfl⟩
  · exact ((C17_set_then_get test_heap tensor_a 3 7 (by decide)).2 (by decide)).1

/-- C18: the results of `operator+`, `operator-`, `operator*`, `zeros`, `ones` and
`random` start as the unwritten buffer of `Tensor(n)`, and when the operation
returns every cell of the result has been written, whatever the length, 0
included. -/
theorem C18_results_fully_written [Add F] [Sub F] [Mul F] [Zero F] [One F] {G : Type}
    (distribution : G → F × G) (h : Heap F) (a b : Tensor) (s : F) (g : G) (n : Nat)
    (ha : a.Valid h) (hb : b.Valid h) (hlen : a.size_ = b.size_) :
    (∀ m, ∀ c ∈ (Tensor.Tensor_size h m).1.cells (Tensor.Tensor_size h m).2,
      c.init = false) ∧
    (∃ r h', Tensor.operator_plus h a b = .ok (r, h') ∧ (r.cells h').length = r.size_ ∧
      r.size_ = a.size_ ∧ r.initialized h') ∧
    (∃ r h', Tensor.operator_minus h a b = .ok (r, h') ∧ (r.cells h').length = r.size_ ∧
      r.size_ = a.size_ ∧ r.initialized h') ∧
    (∃ r h', Tensor.operator_mul h a s = .ok (r, h') ∧ (r.cells h').length = r.size_ ∧
      r.size_ = a.size_ ∧ r.initialized h') ∧
    (∃ t h', Tensor.zeros h n = .ok (t, h') ∧ (t.cells h').length = t.size_ ∧
      t.size_ = n ∧ t.initialized h') ∧
    (∃ t h', Tensor.ones h n = .ok (t, h') ∧ (t.cells h').length = t.size_ ∧
      t.size_ = n ∧ t.initialized h') ∧
    (∃ t h' g', Tensor.random distribution h g n = .ok (t, h', g') ∧
      (t.cells h').length = t.size_ ∧ t.size_ = n ∧ t.initialized h') := by
  have hrep : ∀ (v : F) (t : Tensor) (h' : Heap F),
      t.cells h' = List.replicate n (Cell.mk v true) → t.initialized h' := by
    intro v t h' hcells c hc
    rw [hcells] at hc
    rw [(List.mem_replicate.mp hc).2]
  refine ⟨?_, ?_, ?_, ?_, ?_, ?_, ?_⟩
  · intro m c hc
    rw [(Tensor_size_ok h m).2.2.2.2] at hc
    obtain ⟨i, _, hi⟩ := List.mem_map.mp hc
    rw [← hi]
  · obtain ⟨h', hrun, hvalid, _, _, _, hrlen, hcell⟩ := operator_plus_ok h a b ha hb hlen
    exact ⟨_, h', hrun, hvalid.cells_length, Tensor_size_size h a.size_,
      initialized_of_cells h' _ a.size_ _ hrlen hcell⟩
  · obtain ⟨h', hrun, hvalid, _, _, _, hrlen, hcell⟩ := operator_minus_ok h a b ha hb hlen
    exact ⟨_, h', hrun, hvalid.cells_length, Tensor_size_size h a.size_,
      initialized_of_cells h' _ a.size_ _ hrlen hcell⟩
  · obtain ⟨h', hrun, hvalid, _, _, _, hrlen, hcell⟩ := operator_mul_ok h a s ha
    exact ⟨_, h', hrun, hvalid.cells_length, Tensor_size_size h a.size_,
      initialized_of_cells h' _ a.size_ _ hrlen hcell⟩
  · obtain ⟨h', hfill, hvalid, _, _, _, hcells⟩ := fresh_fill_ok h n (0 : F)
    exact ⟨_, h', by simp only [Tensor.zeros, hfill], hvalid.cells_length,
      Tensor_size_size h n, hrep 0 _ h' hcells⟩
  · obtain ⟨h', hfill, hvalid, _, _, _, hcells⟩ := fresh_fill_ok h n (1 : F)
    exact ⟨_, h', by simp only [Tensor.ones, hfill], hvalid.cells_length,
      Tensor_size_size h n, hrep 1 _ h' hcells⟩
  · obtain ⟨h', g', hrun, hvalid, _, _, hrlen, hcell⟩ := random_ok distribution h g n
    exact ⟨_, h', g', hrun, hvalid.cells_length, Tensor_size_size h n,
      initialized_of_cells h' _ n (fun _ v => ∃ g0, v = (distribution g0).1) hrlen hcell⟩

/-- C18 at the operands of the test and at length 0: the sum of `[1, 2, 3]` and
`[4, 5, 6]` is fully written, and so is `random(0)`. -/
theorem C18_results_fully_written_witness :
    tensor_a.Valid test_heap ∧ tensor_b.Valid test_heap ∧ tensor_a.size_ = tensor_b.size_ ∧
    (∃ r h', Tensor.operator_plus test_heap tensor_a tensor_b = .ok (r, h') ∧
      (r.cells h').length = r.size_ ∧ r.size_ = tensor_a.size_ ∧ r.initialized h') ∧
    (∃ t h' g', Tensor.random test_distribution test_heap 0 0 = .ok (t, h', g') ∧
      (t.cells h').length = t.size_ ∧ t.size_ = 0 ∧ t.initialized h') :=
  ⟨by decide, by decide, rfl,
    (C18_results_fully_written test_distribution test_heap tensor_a tensor_b 2 0 0
      (by decide) (by decide) rfl).2.1,
    (C18_results_fully_written test_distribution test_heap tensor_a tensor_b 2 0 0
      (by decide) (by decide) rfl).2.2.2.2.2.2⟩

/-! ## Invariants of program states -/

theorem Tensor.Valid.of_null {h h' : Heap F} {t : Tensor} (hv : t.Valid h)
    (hn : t.data_ = nullptr) : t.Valid h' := by
  unfold Tensor.Valid
  rw [if_pos hn]
  exact hv.null hn

theorem Tensor_default_valid (h : Heap F) : Tensor.Tensor_default.Valid h := by
  simp [Tensor.Valid, Tensor.Tensor_default]

/-- Replacing the tensor at one address keeps a state well formed when the new heap
keeps the buffers of the other tensors and the new tensor is valid, owns its
buffer and shares it with no other tensor. -/
theorem WF_replace (s : State F) (x : Nat) (t : Tensor) (h' : Heap F) (hwf : s.WF)
    (hnext : s.heap.next ≤ h'.next)
    (hkeep : ∀ z, z ≠ x → (s.objs z).data_ ≠ nullptr →
      h'.mem (s.objs z).data_ = s.heap.mem (s.objs z).data_)
    (htv : t.Valid h') (hto : t.data_ ≠ nullptr → t.owns_memory_ = true)
    (htd : ∀ z, z ≠ x → t.data_ ≠ nullptr → t.data_ ≠ (s.objs z).data_) :
    State.WF { objs := Function.update s.objs x t, heap := h' } := by
  obtain ⟨hv, ho, hd⟩ := hwf
  refine ⟨?_, ?_, ?_⟩
  · intro z
    by_cases hz : z = x
    · subst hz
      simpa using htv
    · simp only [Function.update_noteq hz]
      by_cases hn : (s.objs z).data_ = nullptr
      · exact (hv z).of_null hn
      · exact (hv z).frame (hkeep z hz hn) hnext
  · intro z
    by_cases hz : z = x
    · subst hz
      simpa using hto
    · simp only [Function.update_noteq hz]
      exact ho z
  · intro z y hzy
    by_cases hz : z = x
    · subst hz
      have hy : y ≠ z := Ne.symm hzy
      simp only [Function.update_same, Function.update_noteq hy]
      exact htd y hy
    · by_cases hy : y = x
      · subst hy
        simp only [Function.update_same, Function.update_noteq hz]
        intro hn heq
        exact htd z hz (by rw [← heq]; exact hn) heq.symm
      · simp only [Function.update_noteq hz, Function.update_noteq hy]
        exact hd z y hzy

/-- Storing at an address a tensor whose buffer was just allocated keeps a state well
formed. -/
theorem WF_put_fresh (s : State F) (x : Nat) (t : Tensor) (h' : Heap F) (hwf : s.WF)
    (htv : t.Valid h') (hto : t.owns_memory_ = true)
    (hframe : ∀ p, p ≠ s.heap.next + 1 → h'.mem p = s.heap.mem p)
    (hnext : s.heap.next ≤ h'.next)
    (hdata : t.data_ = nullptr ∨ t.data_ = s.heap.next + 1) :
    State.WF { objs := Function.update s.objs x t, heap := h' } := by
  refine WF_replace s x t h' hwf hnext ?_ htv (fun _ => hto) ?_
  · intro z _ _
    exact hframe _ (hwf.1 z).ne_fresh
  · intro z _ hn heq
    rcases hdata with hd | hd
    · exact hn hd
    · exact (hwf.1 z).ne_fresh (heq.symm.trans hd)

/-- Changing the heap only inside the buffer of one tensor keeps a state well
formed. -/
theorem WF_write (s : State F) (x : Nat) (h' : Heap F) (hwf : s.WF)
    (hnext : h'.next = s.heap.next)
    (hframe : ∀ p, p ≠ (s.objs x).data_ → h'.mem p = s.heap.mem p)
    (hxv : (s.objs x).Valid h') :
    State.WF { objs := s.objs, heap := h' } := by
  have key := WF_replace s x (s.objs x) h' hwf (by omega)
    (fun z hz hn => hframe _ (hwf.2.2 z x hz hn)) hxv (hwf.2.1 x)
    (fun z hz hn => hwf.2.2 x z (Ne.symm hz) hn)
  rw [Function.update_eq_self] at key
  exact key

theorem initial_WF (garbage : Nat → Nat → F) : (State.initial garbage).WF :=
  ⟨fun _ => Tensor_default_valid _, fun _ hn => absurd rfl hn, fun _ _ _ hn => absurd rfl hn⟩

/-- Releasing the buffer of one tensor of a well-formed state keeps the buffers of
the others. -/
theorem WF_release_keeps (s : State F) (x : Nat) (h1 : Heap F) (hwf : s.WF)
    (hframe : ∀ p, p ≠ (s.objs x).data_ → h1.mem p = s.heap.mem p)
    (hnull : (s.objs x).data_ = nullptr → h1 = s.heap) :
    ∀ z, z ≠ x → h1.mem (s.objs z).data_ = s.heap.mem (s.objs z).data_ := by
  intro z hz
  by_cases hn : (s.objs x).data_ = nullptr
  · rw [hnull hn]
  · exact hframe _ (Ne.symm (hwf.2.2 x z (Ne.symm hz) hn))

/-- Every operation keeps a state well formed. -/
theorem step_WF [Add F] [Sub F] [Mul F] [Zero F] [One F] {G : Type}
    (distribution : G → F × G) (s : State F) (op : Op F G) (hwf : s.WF) :
    (s.step distribution op).WF := by
  have hempty : ∀ h : Heap F,
      Tensor.Valid h { data_ := nullptr, size_ := 0, owns_memory_ := false } :=
    fun h => Tensor_default_valid h
  cases op with
  | construct_default x =>
    exact WF_replace s x Tensor.Tensor_default s.heap hwf (le_refl _) (fun _ _ _ => rfl)
      (Tensor_default_valid _) (fun hn => absurd rfl hn) (fun _ _ hn => absurd rfl hn)
  | construct_size x size =>
    obtain ⟨hv, hframe, hnext, hdata, _⟩ := Tensor_size_ok s.heap size
    exact WF_put_fresh s x _ _ hwf hv (Tensor_size_owns _ _) hframe hnext hdata
  | construct_vector x values =>
    obtain ⟨t, h', hrun, _, howns, hv, hframe, hnext, _, _, hdata⟩ :=
      Tensor_vector_ok s.heap values
    simp only [State.step, hrun]
    exact WF_put_fresh s x t h' hwf hv howns hframe hnext hdata
  | construct_copy x other =>
    by_cases hx : x = other
    · simp only [State.step, if_pos hx]
      exact hwf
    · obtain ⟨t, h', hrun, _, howns, hv, hframe, hnext, _, _, hdata⟩ :=
        Tensor_copy_ok s.heap (s.objs other) (hwf.1 other)
      simp only [State.step, if_neg hx, hrun]
      exact WF_put_fresh s x t h' hwf hv howns hframe hnext hdata
  | construct_move x other =>
    by_cases hx : x = other
    · simp only [State.step, if_pos hx]
      exact hwf
    · simp only [State.step, if_neg hx]
      have h1 := WF_replace s other { data_ := nullptr, size_ := 0, owns_memory_ := false }
        s.heap hwf (le_refl _) (fun _ _ _ => rfl) (hempty _) (fun hn => absurd rfl hn)
        (fun _ _ hn => absurd rfl hn)
      have h2 := WF_replace _ x (s.objs other) s.heap h1 (le_refl _) (fun _ _ _ => rfl)
        (hwf.1 other) (hwf.2.1 other)
        (by
          intro z _ hn
          by_cases hzo : z = other
          · subst hzo
            simpa using hn
          · simp only [Function.update_noteq hzo]
            exact hwf.2.2 other z (Ne.symm hzo) hn)
      rw [Function.update_comm (Ne.symm hx)] at h2
      exact h2
  | assign_copy this other =>
    by_cases hx : this = other
    · have hself : Tensor.operator_assign_copy s this other = .ok s := by
        simp [Tensor.operator_assign_copy, hx]
      simp only [State.step, hself]
      exact hwf
    · obtain ⟨h1, hdel, hnext1, _, hframe1, hnull1⟩ :=
        destroy_ok s.heap (s.objs this) (hwf.1 this)
      have hkeep1 := WF_release_keeps s this h1 hwf hframe1 hnull1
      have hother1 : (s.objs other).Valid h1 :=
        (hwf.1 other).frame (hkeep1 other (Ne.symm hx)) (by omega)
      obtain ⟨b, h3, hcopy, _, howns, hbv, hframe3, hnext3, _, _, hdata⟩ :=
        Tensor_copy_ok h1 (s.objs other) hother1
      have hrun : Tensor.operator_assign_copy s this other =
          .ok { objs := Function.update s.objs this b, heap := h3 } := by
        rw [operator_assign_copy_eq s this other hx, hdel]
        simp only [hcopy]
      simp only [State.step, hrun]
      refine WF_replace s this b h3 hwf (by omega) ?_ hbv (fun _ => howns) ?_
      · intro z hz _
        rw [hframe3 _ (by rw [hnext1]; exact (hwf.1 z).ne_fresh), hkeep1 z hz]
      · intro z _ hn heq
        rcases hdata with hd | hd
        · exact hn hd
        · exact (hwf.1 z).ne_fresh (by rw [← hnext1]; exact heq.symm.trans hd)
  | assign_move this other =>
    by_cases hx : this = other
    · have hself : Tensor.operator_assign_move s this other = .ok s := by
        simp [Tensor.operator_assign_move, hx]
      simp only [State.step, hself]
      exact hwf
    · obtain ⟨h1, hdel, hnext1, _, hframe1, hnull1⟩ :=
        destroy_ok s.heap (s.objs this) (hwf.1 this)
      have hkeep1 := WF_release_keeps s this h1 hwf hframe1 hnull1
      have hother1 : (s.objs other).Valid h1 :=
        (hwf.1 other).frame (hkeep1 other (Ne.symm hx)) (by omega)
      have hdel' : (if (s.objs this).owns_memory_ && (s.objs this).data_ != nullptr
          then s.heap.delete_array (s.objs this).data_ else Except.ok s.heap) = .ok h1 := hdel
      have hrun : Tensor.operator_assign_move s this other =
          .ok { objs := Function.update
                  (Function.update s.objs this
                    { data_ := (s.objs other).data_, size_ := (s.objs other).size_,
                      owns_memory_ := (s.objs other).owns_memory_ })
                  other { data_ := nullptr, size_ := 0, owns_memory_ := false }
                heap := h1 } := by
        simp only [Tensor.operator_assign_move, if_pos hx, hdel']
      simp only [State.step, hrun]
      have w1 := WF_replace s other { data_ := nullptr, size_ := 0, owns_memory_ := false }
        s.heap hwf (le_refl _) (fun _ _ _ => rfl) (hempty _) (fun hn => absurd rfl hn)
        (fun _ _ hn => absurd rfl hn)
      have w2 := WF_replace _ this (s.objs other) h1 w1 (by simp only; omega)
        (by
          intro z hz hn
          by_cases hzo : z = other
          · subst hzo
            simp at hn
          · simp only [Function.update_noteq hzo] at hn ⊢
            exact hkeep1 z hz)
        hother1 (hwf.2.1 other)
        (by
          intro z _ hn
          by_cases hzo : z = other
          · subst hzo
            simpa using hn
          · simp only [Function.update_noteq hzo]
            exact hwf.2.2 other z (Ne.symm hzo) hn)
      rw [Function.update_comm (Ne.symm hx)] at w2
      exact w2
  | destroy x =>
    obtain ⟨h1, hdel, hnext1, _, hframe1, hnull1⟩ := destroy_ok s.heap (s.objs x) (hwf.1 x)
    have hkeep1 := WF_release_keeps s x h1 hwf hframe1 hnull1
    simp only [State.step, hdel]
    exact WF_replace s x Tensor.Tensor_default h1 hwf (by omega) (fun z hz _ => hkeep1 z hz)
      (Tensor_default_valid _) (fun hn => absurd rfl hn) (fun _ _ hn => absurd rfl hn)
  | set x idx v =>
    by_cases hi : idx < (s.objs x).size_
    · obtain ⟨h1, hset, hnext1, _, hframe1, hv1, _⟩ :=
        set_ok s.heap (s.objs x) idx v (hwf.1 x) hi
      simp only [State.step, hset]
      exact WF_write s x h1 hwf hnext1 hframe1 hv1
    · have hge : idx ≥ (s.objs x).size_ := by omega
      have herr : Tensor.set s.heap (s.objs x) idx v = .error .out_of_range := by
        simp [Tensor.set, Tensor.operator_index, hge]
      simp only [State.step, herr]
      exact hwf
  | fill x v =>
    obtain ⟨h1, hfill, hnext1, _, hframe1, hv1, _, _⟩ := fill_ok s.heap (s.objs x) v (hwf.1 x)
    simp only [State.step, hfill]
    exact WF_write s x h1 hwf hnext1 hframe1 hv1
  | plus x this other =>
    by_cases hlen : (s.objs this).size_ = (s.objs other).size_
    · obtain ⟨h', hrun, hv, hframe, hnext, _⟩ :=
        operator_plus_ok s.heap (s.objs this) (s.objs other) (hwf.1 this) (hwf.1 other) hlen
      simp only [State.step, hrun]
      exact WF_put_fresh s x _ h' hwf hv (Tensor_size_owns _ _) hframe hnext
        (Tensor_size_ok s.heap _).2.2.2.1
    · have herr : Tensor.operator_plus s.heap (s.objs this) (s.objs other) =
          .error .invalid_argument := by
        unfold Tensor.operator_plus
        rw [if_pos hlen]
      simp only [State.step, herr]
      exact hwf
  | minus x this other =>
    by_cases hlen : (s.objs this).size_ = (s.objs other).size_
    · obtain ⟨h', hrun, hv, hframe, hnext, _⟩ :=
        operator_minus_ok s.heap (s.objs this) (s.objs other) (hwf.1 this) (hwf.1 other) hlen
      simp only [State.step, hrun]
      exact WF_put_fresh s x _ h' hwf hv (Tensor_size_owns _ _) hframe hnext
        (Tensor_size_ok s.heap _).2.2.2.1
    · have herr : Tensor.operator_minus s.heap (s.objs this) (s.objs other) =
          .error .invalid_argument := by
        unfold Tensor.operator_minus
        rw [if_pos hlen]
      simp only [State.step, herr]
      exact hwf
  | mul x this scalar =>
    obtain ⟨h', hrun, hv, hframe, hnext, _⟩ :=
      operator_mul_ok s.heap (s.objs this) scalar (hwf.1 this)
    simp only [State.step, hrun]
    exact WF_put_fresh s x _ h' hwf hv (Tensor_size_owns _ _) hframe hnext
      (Tensor_size_ok s.heap _).2.2.2.1
  | zeros x size =>
    obtain ⟨h', hfill, hv, hframe, hnext, _⟩ := fresh_fill_ok s.heap size (0 : F)
    simp only [State.step, Tensor.zeros, hfill]
    exact WF_put_fresh s x _ h' hwf hv (Tensor_size_owns _ _) hframe hnext
      (Tensor_size_ok s.heap _).2.2.2.1
  | ones x size =>
    obtain ⟨h', hfill, hv, hframe, hnext, _⟩ := fresh_fill_ok s.heap size (1 : F)
    simp only [State.step, Tensor.ones, hfill]
    exact WF_put_fresh s x _ h' hwf hv (Tensor_size_owns _ _) hframe hnext
      (Tensor_size_ok s.heap _).2.2.2.1
  | random x size g =>
    obtain ⟨h', g', hrun, hv, hframe, hnext, _⟩ := random_ok distribution s.heap g size
    simp only [State.step, hrun]
    exact WF_put_fresh s x _ h' hwf hv (Tensor_size_owns _ _) hframe hnext
      (Tensor_size_ok s.heap _).2.2.2.1

/-- Every state a program reaches from a well-formed state is well formed. -/
theorem run_WF [Add F] [Sub F] [Mul F] [Zero F] [One F] {G : Type}
    (distribution : G → F × G) (ops : List (Op F G)) :
    ∀ s : State F, s.WF → (s.run distribution ops).WF := by
  induction ops with
  | nil => intro s hwf; exact hwf
  | cons op ops ih =>
    intro s hwf
    exact ih (s.step distribution op) (step_WF distribution s op hwf)

/-- C13: in every state a program reaches by constructors, copy and move construction
and assignment, the destructor, indexed writes, `fill`, `operator+`,
`operator-`, `operator*`, `zeros`, `ones` and `random` (a call that throws
leaving the state as it is), every tensor, moved-from ones included, has a
non-null buffer exactly when its length is positive. -/
theorem C13_buffer_nonnull_iff_length_pos [Add F] [Sub F] [Mul F] [Zero F] [One F]
    {G : Type} (distribution : G → F × G) (garbage : Nat → Nat → F) (ops : List (Op F G))
    (x : Nat) :
    (((State.initial garbage).run distribution ops).objs x).data_ ≠ nullptr ↔
      0 < (((State.initial garbage).run distribution ops).objs x).size_ := by
  have hwf := run_WF distribution ops (State.initial garbage) (initial_WF garbage)
  constructor
  · intro hn
    exact ((hwf.1 x).live hn).1
  · intro hpos
    exact (hwf.1 x).data_ne_null hpos

/-- C20: in every state a program reaches, a tensor with a non-null buffer has
`owns_memory_` set, no other tensor holds that buffer, and its destructor
releases it; a default-constructed tensor and a moved-from tensor (after move
construction or move assignment) have a null buffer, length 0 and
`owns_memory_` clear. -/
theorem C20_ownership_flag [Add F] [Sub F] [Mul F] [Zero F] [One F]
    {G : Type} (distribution : G → F × G) (garbage : Nat → Nat → F) (ops : List (Op F G))
    (x y : Nat) (t : Tensor) :
    ((((State.initial garbage).run distribution ops).objs x).data_ ≠ nullptr →
      (((State.initial garbage).run distribution ops).objs x).owns_memory_ = true ∧
      (∀ z, z ≠ x →
        (((State.initial garbage).run distribution ops).objs z).data_ ≠
          (((State.initial garbage).run distribution ops).objs x).data_) ∧
      ∃ h1, Tensor.destroy ((State.initial garbage).run distribution ops).heap
          (((State.initial garbage).run distribution ops).objs x) = .ok h1 ∧
        h1.mem (((State.initial garbage).run distribution ops).objs x).data_ = none) ∧
    Tensor.Tensor_default = { data_ := nullptr, size_ := 0, owns_memory_ := false } ∧
    (Tensor.Tensor_move t).2 = { data_ := nullptr, size_ := 0, owns_memory_ := false } ∧
    (x ≠ y →
      ((((State.initial garbage).run distribution ops).step distribution
          (Op.construct_move x y)).objs y =
        { data_ := nullptr, size_ := 0, owns_memory_ := false }) ∧
      ((((State.initial garbage).run distribution ops).step distribution
          (Op.assign_move x y)).objs y =
        { data_ := nullptr, size_ := 0, owns_memory_ := false })) := by
  have hwf := run_WF distribution ops (State.initial garbage) (initial_WF garbage)
  generalize (State.initial garbage).run distribution ops = s at hwf ⊢
  refine ⟨?_, rfl, rfl, ?_⟩
  · intro hn
    have howns := hwf.2.1 x hn
    refine ⟨howns, fun z hz heq => hwf.2.2 x z (Ne.symm hz) hn heq.symm, ?_⟩
    refine ⟨{ s.heap with mem := Function.update s.heap.mem (s.objs x).data_ none }, ?_, ?_⟩
    · simp [Tensor.destroy, howns, hn, Heap.delete_array, (hwf.1 x).mem_eq hn]
    · simp
  · intro hxy
    constructor
    · simp [State.step, hxy, Tensor.Tensor_move]
    · obtain ⟨s', hrun, _, _, hother, _⟩ := operator_assign_move_ok s x y hxy (hwf.1 x)
        (fun hn => hwf.2.2 x y hxy hn)
      simp only [State.step, hrun]
      exact hother

/-- C20 on a program that builds `[1, 2, 3]` at address 0 and moves it to address 1:
the target owns the buffer, no other tensor holds it, and the source is left
with a null buffer, length 0 and `owns_memory_` clear. -/
theorem C20_ownership_flag_witness :
    (0 : Nat) ≠ 1 ∧
    (((State.initial (fun _ _ => (0 : Int))).run test_distribution
        [Op.construct_vector 0 [1, 2, 3], Op.construct_move 1 0]).objs 1).data_ ≠ nullptr ∧
    (((State.initial (fun _ _ => (0 : Int))).run test_distribution
        [Op.construct_vector 0 [1, 2, 3], Op.construct_move 1 0]).objs 1).owns_memory_ = true ∧
    ((State.initial (fun _ _ => (0 : Int))).run test_distribution
        [Op.construct_vector 0 [1, 2, 3], Op.construct_move 1 0]).objs 0 =
      { data_ := nullptr, size_ := 0, owns_memory_ := false } :=
  ⟨by decide, by decide,
    ((C20_ownership_flag test_distribution (fun _ _ => (0 : Int))
      [Op.construct_vector 0 [1, 2, 3], Op.construct_move 1 0] 1 0
      Tensor.Tensor_default).1 (by decide)).1,
    by decide⟩

end cudarl
